import Mathlib
set_option maxHeartbeats 1000000
/-!
Verification of the metaflask registry core (`libmetaflask.py`, `metaflaskapi.py`)
against its specification.  The Python source is shallowly embedded below:
pure fragments become Lean functions, the MIME-style header parser becomes a
function on the list of (newline-terminator-stripped) lines of the file,
exceptions become `Except`, and Python dicts become association lists updated
with a replace-or-append operation.  External collaborators (the filesystem,
the hash function used for checksums) are passed in as explicit parameters,
matching the spec's treatment of them as abstract boundary interfaces.
-/

/-- Python 2 byte-level (ASCII) whitespace: space, tab, newline, carriage
return, vertical tab (11) and form feed (12).  This is the class used by
`bytes.strip()` with no argument and by `\s` in `_kv_re`, which is
compiled from a `str` pattern without `re.UNICODE` and therefore keeps
the ASCII space category even when matched against a unicode line. -/
def pyIsSpace (c : Char) : Bool :=
  c = ' ' || c = '\t' || c = '\n' || c = '\r' || c.toNat = 11 || c.toNat = 12

/-- Python 2 `unicode.isspace()`: the ASCII whitespace characters plus the
information separators U+001C..U+001F, and the non-ASCII whitespace code
points NEL U+0085, NBSP U+00A0, OGHAM SPACE U+1680, MONGOLIAN VOWEL
SEPARATOR U+180E, the U+2000..U+200A spaces, LINE/PARAGRAPH SEPARATOR
U+2028/U+2029, NARROW NBSP U+202F, MATH SPACE U+205F and IDEOGRAPHIC
SPACE U+3000. -/
def pyUniIsSpace (c : Char) : Bool :=
  pyIsSpace c ||
  (28 ≤ c.toNat && c.toNat ≤ 31) ||
  c.toNat = 0x85 || c.toNat = 0xa0 || c.toNat = 0x1680 || c.toNat = 0x180e ||
  (0x2000 ≤ c.toNat && c.toNat ≤ 0x200a) ||
  c.toNat = 0x2028 || c.toNat = 0x2029 || c.toNat = 0x202f || c.toNat = 0x205f ||
  c.toNat = 0x3000

/-- `not line.strip()` in `read_mime._readline`: the test runs on the RAW
byte string returned by `f.readline()` (before the UTF-8 decode), so this
is the byte-level `strip()` — the line consists solely of ASCII whitespace
bytes (this also covers the empty string returned at EOF; a non-ASCII
character contributes non-whitespace bytes, so a line holding one is never
blank). -/
def pyBlank (line : String) : Bool := line.data.all pyIsSpace

/-- `line[:1].isspace()`: the line is nonempty and its first character is
whitespace.  At this point `line` is the DECODED unicode string, so the
unicode `isspace()` applies — a line starting with, say, NBSP U+00A0
counts as whitespace-led.  Python's `''.isspace()` is `False`, hence the
empty case. -/
def wsLed (line : String) : Bool :=
  match line.data with
  | [] => false
  | c :: _ => pyUniIsSpace c

/-- Split a character list at its first colon, returning the characters
before and after it.  `none` when the list has no colon. -/
def splitAtColon : List Char → Option (List Char × List Char)
  | [] => none
  | c :: rest =>
    if c = ':' then some ([], rest)
    else (splitAtColon rest).map (fun p => (c :: p.1, p.2))

/-- Strip trailing py-whitespace from a character list. -/
def rstripWs (l : List Char) : List Char := (l.reverse.dropWhile pyIsSpace).reverse

/-- The header-line regex `_kv_re = ^(.*?)\s*:\s*(.*?)$` applied to one
(already `rstrip('\r\n')`-ed, hence newline-free) line.  The lazy key group
makes the match split at the first colon; the `\s*` on either side of the
colon strips the whitespace run immediately before the colon from the key
and the whitespace run immediately after it from the value.  A line without
a colon does not match. -/
def kvMatch (line : String) : Option (String × String) :=
  (splitAtColon line.data).map fun p =>
    (String.mk (rstripWs p.1), String.mk (p.2.dropWhile pyIsSpace))

/-- The exceptions `read_mime` can raise while scanning header lines:
`invalid` is `ValueError('Invalid mime data')` (the spec's FormatError) and
`indexError` is the `IndexError` raised by `headers[-1]` when a
whitespace-led line arrives before any header entry exists. -/
inductive PErr where
  | invalid
  | indexError
deriving DecidableEq, Repr

/-- One folding step of `read_mime`: `old_value + u' ' + line[1:]` — the
previous value, a single space, and the continuation line with exactly one
leading character removed. -/
def contFold (v : String) (line : String) : String :=
  v ++ " " ++ String.mk (line.data.drop 1)

/-- The header-scanning loop of `read_mime`, on the file's lines (each line
given without its trailing newline, as after `rstrip('\r\n')`).  Returns the
accumulated header pairs and the remaining lines (the raw body read by
`f.read()` after the loop).  Branch order follows the source: blank line (or
EOF) ends the loop, then the `_kv_re` match is tried, then the
whitespace-led continuation case, and any other line raises
`ValueError('Invalid mime data')`. -/
def parseHeaders : List String → List (String × String) →
    Except PErr (List (String × String) × List String)
  | [], acc => .ok (acc, [])
  | line :: rest, acc =>
    if pyBlank line then .ok (acc, rest)
    else
      match kvMatch line with
      | some kv => parseHeaders rest (acc ++ [kv])
      | none =>
        if wsLed line then
          match acc.getLast? with
          | some last => parseHeaders rest (acc.dropLast ++ [(last.1, contFold last.2 line)])
          | none => .error .indexError
        else .error .invalid

/-- `read_mime` on a file presented as its list of lines. -/
def read_mimeL (lines : List String) : Except PErr (List (String × String) × List String) :=
  parseHeaders lines []

/-- No newline among the characters: the regex `.` (with `re.DOTALL` off)
and hence both the lazy id group and the unescaped dot of `_member_re`
refuse to match a newline. -/
def noNl (l : List Char) : Bool := l.all (fun c => c ≠ '\n')

/-- The filename regex `_member_re = ^(\d{4})_(.*?).txt$`.  The dot before
`txt` is NOT escaped in the source, so it matches any single non-newline
character; `$` matches at the end of the string or just before one final
newline.  The lazy group `(.*?)` takes the shortest id, which prefers the
before-final-newline split when both are possible (they never are, since
the two suffix shapes are incompatible).  Returns the two captured groups:
the 4-digit number and the id. -/
def memberMatchL : List Char → Option (String × String)
  | d1 :: d2 :: d3 :: d4 :: u :: rest =>
    if d1.isDigit ∧ d2.isDigit ∧ d3.isDigit ∧ d4.isDigit ∧ u = '_' then
      let n := rest.length
      if 5 ≤ n ∧ rest.drop (n - 4) = ['t', 'x', 't', '\n'] ∧ noNl (rest.take (n - 4)) then
        some (String.mk [d1, d2, d3, d4], String.mk (rest.take (n - 5)))
      else if 4 ≤ n ∧ rest.drop (n - 3) = ['t', 'x', 't'] ∧ noNl (rest.take (n - 3)) then
        some (String.mk [d1, d2, d3, d4], String.mk (rest.take (n - 4)))
      else none
    else none
  | _ => none

def memberMatch (fname : String) : Option (String × String) := memberMatchL fname.data

/-- The filename shape the spec claims for `read_members` admission:
four decimal digits, an underscore, an id, a LITERAL dot, then `txt`,
ending the filename. -/
def memberShapeSpecB (fname : String) : Bool :=
  match fname.data with
  | d1 :: d2 :: d3 :: d4 :: u :: rest =>
    d1.isDigit && d2.isDigit && d3.isDigit && d4.isDigit && decide (u = '_') &&
      decide (4 ≤ rest.length) &&
      decide (rest.drop (rest.length - 4) = ['.', 't', 'x', 't'])
  | _ => false

/-- The corrected filename shape actually admitted by `_member_re`: four
decimal digits, an underscore, an id without newlines, one arbitrary
non-newline character (the unescaped dot — not necessarily a literal dot),
then `txt`, optionally followed by a single final newline. -/
def memberShapeAmended (fname : String) : Prop :=
  ∃ (d1 d2 d3 d4 : Char) (id : List Char) (c : Char) (tail : List Char),
    fname.data = d1 :: d2 :: d3 :: d4 :: '_' :: (id ++ c :: 't' :: 'x' :: 't' :: tail) ∧
    d1.isDigit ∧ d2.isDigit ∧ d3.isDigit ∧ d4.isDigit ∧
    noNl id ∧ c ≠ '\n' ∧ (tail = [] ∨ tail = ['\n'])

/-- `int(num)` on the 4-digit capture. -/
def natOfDigits (s : String) : Nat := s.data.foldl (fun n c => n * 10 + (c.toNat - 48)) 0

/-- The in-memory `Member` entity, restricted to the fields the verified
claims consume: the sequential number and string id extracted from the
filename, the parsed header pairs (`self.meta`), the canonicalized path,
and the complete file content (as its list of lines), from which the
member's checksum is computed by the abstract hash parameter `ckhash`
(`read_mime` feeds every byte it reads — headers, blank line and body —
into one SHA1, so the checksum is the hash of the whole file content). -/
structure MemberM where
  num : Nat
  id : String
  meta : List (String × String)
  path : String
  content : List String
deriving DecidableEq, Repr

/-- `self.meta.get(key)` — werkzeug `Headers.get` is case-insensitive on
the key and returns the first matching entry. -/
def headersGet (hs : List (String × String)) (key : String) : Option String :=
  (hs.find? (fun p => p.1.toLower == key.toLower)).map (fun p => p.2)

/-- `Person.github`. -/
def MemberM.github (m : MemberM) : Option String := headersGet m.meta "github"

/-- A Python dict as an association list with unique keys: assignment
replaces the value of an existing key in place, otherwise appends. -/
def dictSet {κ ν : Type} [DecidableEq κ] (d : List (κ × ν)) (key : κ) (v : ν) : List (κ × ν) :=
  if d.any (fun p => decide (p.1 = key)) then
    d.map (fun p => if p.1 = key then (key, v) else p)
  else d ++ [(key, v)]

/-- `d.get(k)`: dictionary lookup, `None` on a missing key. -/
def dictGet {κ ν : Type} [DecidableEq κ] (d : List (κ × ν)) (key : κ) : Option ν :=
  (d.find? (fun p => decide (p.1 = key))).map (fun p => p.2)

/-- The five member indices built by `MetaView.__init__`. -/
structure MetaViewM where
  members_by_id : List (String × MemberM)
  members_by_num : List (Nat × MemberM)
  members_by_github : List (String × MemberM)
  members_by_checksum : List (String × MemberM)
  members_by_path : List (String × MemberM)
deriving DecidableEq, Repr

def emptyMetaView : MetaViewM := ⟨[], [], [], [], []⟩

/-- The body of the indexing loop in `MetaView.__init__`: a member is
entered into every index, except that a member without a GitHub handle is
omitted from `members_by_github`. -/
def indexMember (ckhash : List String → String) (mv : MetaViewM) (mem : MemberM) : MetaViewM :=
  { members_by_id := dictSet mv.members_by_id mem.id mem
    members_by_num := dictSet mv.members_by_num mem.num mem
    members_by_github :=
      match mem.github with
      | some g => dictSet mv.members_by_github g mem
      | none => mv.members_by_github
    members_by_checksum := dictSet mv.members_by_checksum (ckhash mem.content) mem
    members_by_path := dictSet mv.members_by_path mem.path mem }

/-- `MetaView.__init__`'s indexing pass over the members returned by
`read_members`. -/
def mkMetaView (ckhash : List String → String) (members : List MemberM) : MetaViewM :=
  members.foldl (indexMember ckhash) emptyMetaView

/-- The filename-scanning loop of `read_members`, over the members
directory given as a list of (filename, file lines) pairs: filenames not
matched by `_member_re` are skipped silently; each match is parsed with
`read_mime` (a parse failure propagates and aborts the whole scan) and
becomes a `Member`.  The path field is the join of the members directory
and the filename. -/
def read_membersGo (memberPath : String) :
    List (String × List String) → Except PErr (List MemberM)
  | [] => .ok []
  | (fname, ls) :: rest =>
    match memberMatch fname with
    | none => read_membersGo memberPath rest
    | some (numS, idS) => do
      let parsed ← read_mimeL ls
      let ms ← read_membersGo memberPath rest
      .ok ({ num := natOfDigits numS, id := idS, meta := parsed.1,
             path := memberPath ++ "/" ++ fname, content := ls } :: ms)

/-- `rv.sort(key=lambda x: x.num)`: Python's sort is stable; a stable sort
by the numeric key is `insertionSort` by `·.num ≤ ·.num`. -/
def memNumLE (a b : MemberM) : Prop := a.num ≤ b.num

instance : DecidableRel memNumLE := fun a b => inferInstanceAs (Decidable (a.num ≤ b.num))

/-- `read_members`: scan, parse, then sort ascending by member number. -/
def read_membersE (memberPath : String) (dir : List (String × List String)) :
    Except PErr (List MemberM) :=
  (read_membersGo memberPath dir).map (List.insertionSort memNumLE)

/-- `MetaView.__init__` end to end on the members directory: read and parse
all member files, then build the indices.  A `read_mime` failure aborts the
whole construction — there is no partial registry value. -/
def mkMetaViewE (ckhash : List String → String) (memberPath : String)
    (dir : List (String × List String)) : Except PErr MetaViewM :=
  (read_membersE memberPath dir).map (mkMetaView ckhash)

/-- The key order of `sorted(self.members_by_num.items())`: tuples compare
on the numeric key first; the member objects in second position are never
reached because dict keys are unique. -/
def numKeyLE (a b : Nat × MemberM) : Prop := a.1 ≤ b.1

instance : DecidableRel numKeyLE := fun a b => inferInstanceAs (Decidable (a.1 ≤ b.1))

instance : IsTotal (Nat × MemberM) numKeyLE := ⟨fun a b => Nat.le_total a.1 b.1⟩

instance : IsTrans (Nat × MemberM) numKeyLE := ⟨fun _ _ _ => Nat.le_trans⟩

/-- `iter_members()`: the dict items sorted ascending by key, values only.
Python's `sorted` is a stable sort; on the unique dict keys its output is
the unique key-ascending arrangement, which `insertionSort` computes. -/
def iter_membersM (mv : MetaViewM) : List MemberM :=
  (List.insertionSort numKeyLE mv.members_by_num).map Prod.snd

/-- Python 2 comparison on optional strings: `None` sorts before every
string; strings compare lexicographically. -/
def pyLeOptStr (a b : Option String) : Prop :=
  match a, b with
  | none, _ => True
  | some _, none => False
  | some s, some t => s ≤ t

instance : ∀ a b, Decidable (pyLeOptStr a b) := fun a b =>
  match a, b with
  | none, _ => .isTrue trivial
  | some _, none => .isFalse (fun h => h)
  | some s, some t => inferInstanceAs (Decidable (s ≤ t))

/-- The tuple order used by `members.sort()` in `get_intended_members` on
`(num, github)` pairs. -/
def intendedLE (a b : Nat × Option String) : Prop :=
  a.1 < b.1 ∨ (a.1 = b.1 ∧ pyLeOptStr a.2 b.2)

instance : DecidableRel intendedLE := fun a b =>
  inferInstanceAs (Decidable (a.1 < b.1 ∨ (a.1 = b.1 ∧ pyLeOptStr a.2 b.2)))

/-- `get_intended_members`: collect `(member.num, member.github)` over
`iter_members()` — note: every member contributes, also those whose GitHub
handle is absent (`None`) — sort the tuples, and keep the second
components. -/
def get_intended_membersM (mv : MetaViewM) : List (Option String) :=
  (List.insertionSort intendedLE
    ((iter_membersM mv).map (fun m => (m.num, m.github)))).map Prod.snd

/-- `MetaView.locate_linked_member`'s filesystem boundary: `readlink`
returns the symlink target when the path is a symbolic link (`none` models
the `OSError` branch), `dirname`/`joinPath` are the `os.path` operations,
`normreal` is `_normpath = normpath(realpath(·))`, and `readContent`
returns the content of the file at a path (`none` models `IOError`). -/
structure Fsys where
  readlink : String → Option String
  dirname : String → String
  joinPath : String → String → String
  normreal : String → String
  readContent : String → Option (List String)

/-- `locate_linked_member(path)`: first try to resolve `path` as a symlink
relative to its directory and look the canonical target up in the by-path
index (any failure, including a lookup miss, falls through); then read the
file's content, hash it, and look the checksum up in the by-checksum
index; `none` (absent) if both fail — never an error. -/
def locate_linked_member (fs : Fsys) (ckhash : List String → String)
    (mv : MetaViewM) (path : String) : Option MemberM :=
  let step1 : Option MemberM :=
    match fs.readlink path with
    | some target =>
      dictGet mv.members_by_path (fs.normreal (fs.joinPath (fs.dirname path) target))
    | none => none
  match step1 with
  | some rv => some rv
  | none =>
    match fs.readContent (fs.normreal path) with
    | some content => dictGet mv.members_by_checksum (ckhash content)
    | none => none

/-- One pass of `sync_members`, with the remote collaborators abstracted
away: `intended` is the iteration order of the Python set
`set(get_intended_members(metaview))`, `current` the iteration order of
`set(get_current_members())` (both therefore duplicate-free in any actual
pass, which theorems state as a hypothesis), and `pending` the provider's
`member_is_pending` predicate.  The first loop emits exactly one action
per intended identity, in iteration order, accumulating `new_members`
(which after the loop equals the intended set); the second loop emits
`deleted` for every identity of `current_members - new_members`.
`syncTag` is the body of the first loop. -/
def syncTag {α : Type} [DecidableEq α] (current : List α) (pending : α → Bool)
    (m : α) : String × α :=
  if m ∉ current then
    if pending m then ("pending", m) else ("added", m)
  else ("retained", m)

def sync_membersM {α : Type} [DecidableEq α] (intended current : List α)
    (pending : α → Bool) : List (String × α) :=
  intended.map (syncTag current pending) ++
  (current.filter (fun m => decide (m ∉ intended))).map (fun m => ("deleted", m))

/-- The invariant of the `members_by_num` dict: keys are unique and every
entry pairs a member with its own number as the key. -/
def NumIdx (d : List (Nat × MemberM)) : Prop :=
  (d.map Prod.fst).Nodup ∧ ∀ p ∈ d, p.1 = p.2.num

/-- Concrete member, checksum function and filesystem for the C6 witness. -/
def m1W : MemberM := ⟨1, "a", [], "/repo/members/0001_a.txt", ["x"]⟩

def ckW : List String → String := fun ls => String.join ls

def fsW : Fsys :=
  { readlink := fun p => if p = "/pl" then some "t" else none
    dirname := fun _ => "/d"
    joinPath := fun a b => a ++ "/" ++ b
    normreal := fun p => if p = "/d/t" then "/repo/members/0001_a.txt" else p
    readContent := fun p =>
      if p = "/f" then some ["x"] else if p = "/u" then some ["zzz"] else none }

/-- A malformed header line in the sense of the spec's FormatError
taxonomy: not blank (byte-level strip), not a `key: value` match, and not
whitespace-led in the unicode `isspace()` sense — a colon-free line led
by a non-ASCII whitespace character such as NBSP is a continuation, not a
malformed line. -/
def badHeaderLine (l : String) : Prop :=
  pyBlank l = false ∧ kvMatch l = none ∧ wsLed l = false

instance (l : String) : Decidable (badHeaderLine l) :=
  inferInstanceAs (Decidable (pyBlank l = false ∧ kvMatch l = none ∧ wsLed l = false))

/-- The tree built by `_make_tree` in `get_member_tree_api`: each node
holds the sponsor it was called for (`none` for the synthetic root) and
the subtrees of the members that sponsor sponsors. -/
inductive MTree where
  | node : Option MemberM → List MTree → MTree

/-- `links.get(sponsor) or ()`: `get_member_tree_api` groups
`iter_members()` by `member.sponsor` with `setdefault(...).append(...)`,
which preserves iteration order, so the group of a sponsor value is the
filter of the member sequence on that sponsor.  The sponsor of a member is
abstracted as a function `sponsor`, which is exactly what the memoized
`Member.sponsor` property provides (one fixed optional member per
member). -/
def sponsorLinks (members : List MemberM) (sponsor : MemberM → Option MemberM)
    (s : Option MemberM) : List MemberM :=
  members.filter (fun m => decide (sponsor m = s))

/-- Sequencing of optional results: `some` of the list of values iff every
element is `some` (the shape of the recursive list comprehension
`[_make_tree(x) for x in ...]`). -/
def seqOption {α : Type} : List (Option α) → Option (List α)
  | [] => some []
  | x :: xs => x.bind (fun v => (seqOption xs).map (fun vs => v :: vs))

/-- `_make_tree` with explicit recursion fuel: the Python recursion either
terminates or overflows the stack; exhausted fuel (`none`) models
non-termination, and the C4 theorem shows fuel `members.length + 1`
always returns a tree. -/
def makeTreeF (members : List MemberM) (sponsor : MemberM → Option MemberM) :
    Nat → Option MemberM → Option MTree
  | 0, _ => none
  | fuel + 1, s =>
    (seqOption ((sponsorLinks members sponsor s).map
      (fun m => makeTreeF members sponsor fuel (some m)))).map
        (fun children => MTree.node s children)

/-- All root-to-node label paths of a tree. -/
def pathsFrom : MTree → List (List (Option MemberM))
  | .node s children =>
    [s] :: (children.attach.map
      (fun c => (pathsFrom c.val).map (fun p => s :: p))).flatten
decreasing_by
  simp_wf
  have := List.sizeOf_lt_of_mem c.2
  omega

/-- Ancestor chains: `AncM members sponsor s k` says the node label `s`
reaches the synthetic root `none` in exactly `k` sponsor steps, every
member on the way being drawn from `members` (as every non-root node of
the recursion is). -/
inductive AncM (members : List MemberM) (sponsor : MemberM → Option MemberM) :
    Option MemberM → Nat → Prop
  | root : AncM members sponsor none 0
  | step (m : MemberM) (k : Nat) : m ∈ members →
      AncM members sponsor (sponsor m) k → AncM members sponsor (some m) (k + 1)

/-- Label sequences along a root-to-node path carry strictly increasing
ancestor depths. -/
inductive DepthChain (members : List MemberM) (sponsor : MemberM → Option MemberM) :
    Nat → List (Option MemberM) → Prop
  | single (k : Nat) (s : Option MemberM) : AncM members sponsor s k →
      DepthChain members sponsor k [s]
  | cons (k : Nat) (s : Option MemberM) (p : List (Option MemberM)) :
      AncM members sponsor s k → DepthChain members sponsor (k + 1) p →
      DepthChain members sponsor k (s :: p)

def cycleA : MemberM := ⟨1, "A", [], "pa", []⟩

def cycleB : MemberM := ⟨2, "B", [], "pb", []⟩

def cycleC : MemberM := ⟨3, "C", [], "pc", []⟩

/-- A Python value as found in the decoded package-index JSON blob and in
the plain documents produced by `to_json`. -/
inductive Py where
  | pynone : Py
  | pstr : String → Py
  | pbool : Bool → Py
  | pint : Int → Py
  | pdict : List (String × Py) → Py
  | plist : List Py → Py

/-- Python truthiness (the `or` in `self.pypi_info or {}` and the
`if not download_stats` test). -/
def pyTruthy : Py → Bool
  | .pynone => false
  | .pstr s => decide (s ≠ "")
  | .pbool b => b
  | .pint n => decide (n ≠ 0)
  | .pdict xs => !xs.isEmpty
  | .plist xs => !xs.isEmpty

/-- The runtime exceptions full serialization can raise on off-shape
data: `TypeError` (iterating a non-sequence such as `None`),
`AttributeError` (calling a `dict`/`str` method on a value of the wrong
type, or accessing an undefined attribute), `KeyError` (a missing
mandatory key). -/
inductive RunErr where
  | typeError
  | attrError
  | keyError
deriving DecidableEq, Repr

/-- `v.get(key, default)`: dictionary lookup with a default; calling
`.get` on a non-dict raises `AttributeError`. -/
def pyGet (v : Py) (key : String) (dflt : Py) : Except RunErr Py :=
  match v with
  | .pdict xs =>
    match xs.find? (fun p => decide (p.1 = key)) with
    | some p => .ok p.2
    | none => .ok dflt
  | _ => .error .attrError

/-- `v[key]`: mandatory dictionary lookup; a missing key raises
`KeyError`, a non-dict receiver `TypeError`. -/
def pyIndex (v : Py) (key : String) : Except RunErr Py :=
  match v with
  | .pdict xs =>
    match xs.find? (fun p => decide (p.1 = key)) with
    | some p => .ok p.2
    | none => .error .keyError
  | _ => .error .typeError

/-- `for x in v`: the values iterated in the modeled runs are JSON lists;
iterating `None` (the relevant off-shape case, from a one-argument
`.get` miss) raises `TypeError`. -/
def pyIterList (v : Py) : Except RunErr (List Py) :=
  match v with
  | .plist xs => .ok xs
  | _ => .error .typeError

/-- `v.iteritems()`: items of a dict; `AttributeError` otherwise. -/
def pyItems (v : Py) : Except RunErr (List (String × Py)) :=
  match v with
  | .pdict xs => .ok xs
  | _ => .error .attrError

/-- A string value (receiver of `str` methods such as `.lower()` and
`.rstrip()`); `AttributeError` otherwise. -/
def pyStrVal (v : Py) : Except RunErr String :=
  match v with
  | .pstr s => .ok s
  | _ => .error .attrError

/-- `s.rstrip('Z')`. -/
def rstripZ (s : String) : String :=
  String.mk (s.data.reverse.dropWhile (fun c => c = 'Z')).reverse

def optStrPy : Option String → Py
  | some s => .pstr s
  | none => .pynone

/-- `Person.name` for a member, via werkzeug `Headers.get`. -/
def MemberM.name (m : MemberM) : Option String := headersGet m.meta "name"

/-- `Member.to_json(compact=True)`. -/
def memberCompactJson (m : MemberM) : Py :=
  .pdict [("num", .pint m.num), ("id", .pstr m.id), ("name", optStrPy m.name),
          ("is_member", .pbool true)]

/-- The `Project` entity, its lazily-computed fields modeled as the values
their memoized computations produce: `meta` is the parsed META header
block (empty `Headers()` when the file is absent), `readme` the decoded
README, `extension_status_approved` the parsed EXTENSION_STATUS flag
(absent file means not an extension), `project_lead_json` the serialized
project lead (a Person or Member document; its inner structure is
irrelevant to the claims proved here), `stewards` the members resolved
from the stewardship directory, and `pypi_info` the cached package-index
blob — `none` exactly when `open_cache_file` finds no cache file, making
`json.load` never run and the memoized property `None`. -/
structure ProjectP where
  internal_name : String
  meta : List (String × String)
  readme : Option String
  extension_status_approved : Option Bool
  project_lead_json : Option Py
  stewards : List MemberM
  pypi_info : Option Py

def ProjectP.name (p : ProjectP) : Option String := headersGet p.meta "name"

def ProjectP.website (p : ProjectP) : Option String := headersGet p.meta "website"

def ProjectP.github (p : ProjectP) : Option String := headersGet p.meta "github"

def ProjectP.bugtracker (p : ProjectP) : Option String := headersGet p.meta "bugtracker"

def ProjectP.documentation (p : ProjectP) : Option String :=
  headersGet p.meta "documentation"

def ProjectP.pypi (p : ProjectP) : Option String := headersGet p.meta "pypi"

def ProjectP.license (p : ProjectP) : Option String := headersGet p.meta "license"

def ProjectP.status (p : ProjectP) : Option String := headersGet p.meta "status"

/-- `Project.pypi_url`, with `werkzeug.urls.url_quote` abstracted as a
parameter. -/
def ProjectP.pypi_url (urlquote : String → String) (p : ProjectP) : Option String :=
  p.pypi.map (fun n => "https://pypi.python.org/pypi/" ++ urlquote n ++ "/")

/-- `Project.is_extension`: the EXTENSION_STATUS file exists. -/
def ProjectP.is_extension (p : ProjectP) : Bool := p.extension_status_approved.isSome

/-- `self.extension_status and self.extension_status.to_json() or None`
(the `to_json` dict is nonempty, hence truthy). -/
def extStatusJson (p : ProjectP) : Py :=
  match p.extension_status_approved with
  | some b => .pdict [("is_approved", .pbool b)]
  | none => .pynone

/-- `self.project_lead and self.project_lead.to_json() or None` (a lead's
serialized dict is nonempty, hence truthy). -/
def leadJson (p : ProjectP) : Py :=
  match p.project_lead_json with
  | some j => j
  | none => .pynone

def mapME {α β : Type} (f : α → Except RunErr β) : List α → Except RunErr (List β)
  | [] => .ok []
  | x :: xs => do
    let y ← f x
    let ys ← mapME f xs
    .ok (y :: ys)

/-- The inner `for d in items` loop of the full serialization: one
download entry.  The computed `pyver` is dead code in the source (the
entry stores `ver` under `py_version`), reproduced here for fidelity. -/
def buildDownload (ver : String) (d : Py) : Except RunErr Py := do
  let _pyver ← pyGet d "python_version" Py.pynone
  let upload ← pyIndex d "upload_time"
  let uploadS ← pyStrVal upload
  let url ← pyIndex d "url"
  let pkgType ← pyIndex d "packagetype"
  let fname ← pyIndex d "filename"
  let size ← pyIndex d "size"
  return Py.pdict [("py_version", Py.pstr ver),
    ("upload_time", Py.pstr (rstripZ uploadS ++ "Z")),
    ("url", url), ("pkg_type", pkgType), ("filename", fname), ("size", size)]

structure RelEntry where
  version : String
  downloads : List Py
  release_date : String

def strLE (a b : String) : Prop := a ≤ b

instance : DecidableRel strLE := fun a b => inferInstanceAs (Decidable (a ≤ b))

/-- One `(ver, items)` iteration of the releases loop; `none` models the
`continue` on an empty download list. -/
def relEntry (ver : String) (items : Py) : Except RunErr (Option RelEntry) := do
  let itemList ← pyIterList items
  let downloads ← mapME (buildDownload ver) itemList
  if downloads.isEmpty then return none
  else
    let times ← mapME (fun d => do pyStrVal (← pyIndex d "upload_time")) downloads
    return some ⟨ver, downloads, (List.insertionSort strLE times).head?.getD ""⟩

def buildReleases : List (String × Py) → Except RunErr (List RelEntry)
  | [] => .ok []
  | (ver, items) :: rest => do
    let r ← relEntry ver items
    let rs ← buildReleases rest
    match r with
    | some e => .ok (e :: rs)
    | none => .ok rs

/-- `releases.sort(key=lambda x: pkg_resources.parse_version(x['version']))`,
with `parse_version` abstracted as a numeric key. -/
def relLE (parse_version : String → Nat) (a b : RelEntry) : Prop :=
  parse_version a.version ≤ parse_version b.version

instance (parse_version : String → Nat) : DecidableRel (relLE parse_version) :=
  fun a b => inferInstanceAs (Decidable (parse_version a.version ≤ parse_version b.version))

def relToPy (r : RelEntry) : Py :=
  .pdict [("version", .pstr r.version), ("downloads", .plist r.downloads),
          ("release_date", .pstr r.release_date)]

/-- The `supports_python3` scan: first classifier whose lowercase form is
the fixed Python-3 classifier string; a non-string classifier raises on
`.lower()`. -/
def supportsPy3 : List Py → Except RunErr Bool
  | [] => .ok false
  | c :: rest => do
    let s ← pyStrVal c
    if s.toLower = "programming language :: python :: 3" then .ok true
    else supportsPy3 rest

/-- `Project.to_json(compact)`.  Follows the source order: the
`self.pypi_info or {}` defaulting, the `latest_release` chain, the
compact early return, then — for the full document — the classifier
scan (which iterates `pypi_info.get('info', {}).get('classifiers')`, a
one-argument `.get` whose miss yields `None`), download stats, the
releases loop, the version sort, and the final document. -/
def projTo_json (urlquote : String → String) (parse_version : String → Nat)
    (p : ProjectP) (compact : Bool) : Except RunErr Py := do
  let pinfo : Py := match p.pypi_info with
    | some v => if pyTruthy v then v else Py.pdict []
    | none => Py.pdict []
  let info ← pyGet pinfo "info" (Py.pdict [])
  let latest_release ← pyGet info "version" Py.pynone
  if compact then
    return Py.pdict [
      ("internal_name", Py.pstr p.internal_name),
      ("name", optStrPy p.name),
      ("github", optStrPy p.github),
      ("is_extension", Py.pbool p.is_extension),
      ("latest_release", latest_release),
      ("pypi", optStrPy p.pypi),
      ("stewards", Py.plist (p.stewards.map memberCompactJson))]
  else
    let info2 ← pyGet pinfo "info" (Py.pdict [])
    let classifiersV ← pyGet info2 "classifiers" Py.pynone
    let classifiers ← pyIterList classifiersV
    let supports_python3 ← supportsPy3 classifiers
    let info3 ← pyGet pinfo "info" (Py.pdict [])
    let downloadsV ← pyGet info3 "downloads" Py.pynone
    let download_stats : Py :=
      if pyTruthy downloadsV then downloadsV
      else Py.pdict [("last_month", Py.pint 0), ("last_week", Py.pint 0),
                     ("last_day", Py.pint 0)]
    let releasesV ← pyGet pinfo "releases" (Py.pdict [])
    let relItems ← pyItems releasesV
    let releases ← buildReleases relItems
    let sortedReleases := List.insertionSort (relLE parse_version) releases
    return Py.pdict [
      ("internal_name", Py.pstr p.internal_name),
      ("name", optStrPy p.name),
      ("website", optStrPy p.website),
      ("github", optStrPy p.github),
      ("bugtracker", optStrPy p.bugtracker),
      ("documentation", optStrPy p.documentation),
      ("pypi", optStrPy p.pypi),
      ("pypi_url", optStrPy (ProjectP.pypi_url urlquote p)),
      ("license", optStrPy p.license),
      ("status", optStrPy p.status),
      ("readme", optStrPy p.readme),
      ("extension_status", extStatusJson p),
      ("is_extension", Py.pbool p.is_extension),
      ("project_lead", leadJson p),
      ("stewards", Py.plist (p.stewards.map memberCompactJson)),
      ("supports_python3", Py.pbool supports_python3),
      ("releases", Py.plist (sortedReleases.map relToPy)),
      ("latest_release", latest_release),
      ("download_stats", download_stats)]

/-- Concrete project for the C9 and C10 witnesses: no cache file, hence
`pypi_info` absent. -/
def pW : ProjectP := ⟨"flask", [], none, none, none, [], none⟩

/-- The attribute names defined on `Project` (its class body plus the
inherited `_MetaViewContainer.metaview`; double-underscore object
protocol members are irrelevant to `has_stewards` and omitted). -/
def projectAttrs : List String :=
  ["metaview", "internal_name", "path", "meta", "name", "website", "github",
   "bugtracker", "documentation", "pypi", "pypi_url", "license", "status",
   "readme", "extension_status", "is_extension", "project_lead", "stewards",
   "pypi_info", "sync", "to_json"]

/-- The attribute names defined on `Person` (class body plus inherited
`metaview`). -/
def personAttrs : List String :=
  ["metaview", "path", "meta", "checksum", "description", "name", "github",
   "twitter", "email", "to_json"]

/-- The attribute names defined on `Member` (`Person` plus the
member-only fields). -/
def memberAttrs : List String := personAttrs ++ ["num", "id", "sponsor"]

/-- Attribute lookup on a `Project`: a name not defined by the class
raises `AttributeError` (no `__getattr__` hook exists; the weakref
`metaview` property re-raises `AttributeError` only when the registry is
gone, which does not happen within one request). -/
def projGetattrDefined (attr : String) : Except RunErr Unit :=
  if attr ∈ projectAttrs then .ok () else .error .attrError

/-- `iter_projects()`: the registry's projects sorted ascending by
internal name (Python's stable `sorted` with this key; `insertionSort` is
a stable sort). -/
def projNameLE (a b : ProjectP) : Prop := a.internal_name ≤ b.internal_name

instance : DecidableRel projNameLE := fun a b =>
  inferInstanceAs (Decidable (a.internal_name ≤ b.internal_name))

def iter_projectsM (projects : List ProjectP) : List ProjectP :=
  List.insertionSort projNameLE projects

/-- The comprehension of `list_needs_stewards_api`:
`[x.to_json(compact=True) for x in metaview.iter_projects() if not x.has_stewards]`.
Evaluating the filter accesses `x.has_stewards`; the continuation after a
successful access is unreachable, since no entity type defines that
attribute. -/
def needsStewardsGo (urlquote : String → String) (parse_version : String → Nat) :
    List ProjectP → Except RunErr (List Py)
  | [] => .ok []
  | p :: rest => do
    let _ ← projGetattrDefined "has_stewards"
    let pj ← projTo_json urlquote parse_version p true
    let pjs ← needsStewardsGo urlquote parse_version rest
    .ok (pj :: pjs)

/-- `list_needs_stewards_api` on the registry's project list. -/
def list_needs_stewards_apiM (urlquote : String → String)
    (parse_version : String → Nat) (projects : List ProjectP) : Except RunErr (List Py) :=
  needsStewardsGo urlquote parse_version (iter_projectsM projects)

example : read_mimeL ["name: hello", " world", "", "body"] =
    .ok ([("name", "hello world")], ["body"]) := by rfl

example : read_mimeL ["name: a", "zz"] = .error .invalid := by rfl

example : read_mimeL [" x", "y"] = .error .indexError := by rfl

example : read_mimeL ["k: v", " x", ""] = .ok ([("k", "v x")], []) := by rfl

example : kvMatch " bar: baz" = some (" bar", "baz") := by decide

example : wsLed (String.mk [' ', 'x']) = true := by decide

example : ¬ badHeaderLine (String.mk [' ', 'x']) := by decide

example : memberMatch "0001_mitsuhiko.txt" = some ("0001", "mitsuhiko") := by decide

example : memberMatch "0001_atxt" = some ("0001", "") := by decide

example : memberMatch "0001_a.txt\n" = some ("0001", "a") := by decide

example : memberMatch "001_a.txt" = none := by decide

example : sync_membersM ["alice", "bob", "carol"] ["bob", "dave"] (fun _ => false) =
    [("added", "alice"), ("retained", "bob"), ("added", "carol"), ("deleted", "dave")] := by
  decide

theorem splitAtColon_eq_append : ∀ {cs a b : List Char},
    splitAtColon cs = some (a, b) → cs = a ++ ':' :: b := by
  intro cs
  induction cs with
  | nil => intro a b h; simp [splitAtColon] at h
  | cons c rest ih =>
    intro a b h
    by_cases hc : c = ':'
    · rw [splitAtColon, if_pos hc] at h
      simp only [Option.some.injEq, Prod.mk.injEq] at h
      obtain ⟨h1, h2⟩ := h
      subst h1
      subst h2
      simp [hc]
    · rw [splitAtColon, if_neg hc] at h
      simp only [Option.map_eq_some'] at h
      obtain ⟨⟨p1, p2⟩, hp, heq⟩ := h
      simp only [Prod.mk.injEq] at heq
      obtain ⟨h1, h2⟩ := heq
      subst h1
      subst h2
      simp [ih hp]

/-- A line matched by the key-value regex contains a colon, so it is not
blank (the blank-line check in `_readline` never fires on it). -/
theorem kvMatch_not_blank {line : String} {kv : String × String}
    (h : kvMatch line = some kv) : pyBlank line = false := by
  unfold kvMatch at h
  cases hs : splitAtColon line.data with
  | none => rw [hs] at h; simp at h
  | some p =>
    have := splitAtColon_eq_append (a := p.1) (b := p.2) (by rw [hs])
    unfold pyBlank
    rw [this]
    simp [List.all_append, pyIsSpace]

theorem parseHeaders_contFold (conts : List String)
    (h : ∀ c ∈ conts, pyBlank c = false ∧ kvMatch c = none ∧ wsLed c = true) :
    ∀ (rest : List String) (acc : List (String × String)) (k v : String),
      parseHeaders (conts ++ rest) (acc ++ [(k, v)]) =
      parseHeaders rest (acc ++ [(k, conts.foldl contFold v)]) := by
  induction conts with
  | nil => intro rest acc k v; simp
  | cons c cs ih =>
    intro rest acc k v
    have hc := h c (by simp)
    have hcs : ∀ x ∈ cs, pyBlank x = false ∧ kvMatch x = none ∧ wsLed x = true :=
      fun x hx => h x (by simp [hx])
    show parseHeaders (c :: (cs ++ rest)) (acc ++ [(k, v)]) = _
    rw [parseHeaders, hc.1]
    simp only [Bool.false_eq_true, if_false, hc.2.1, hc.2.2, if_true]
    rw [List.getLast?_concat, List.dropLast_concat]
    show parseHeaders (cs ++ rest) (acc ++ [(k, contFold v c)]) = _
    rw [ih hcs rest acc k (contFold v c)]
    rfl

/-- C5: parsing a header block reconstructs every folded value as the first
line's value joined with the continuation lines, one single space inserted
per continuation, each continuation trimmed of exactly one leading
whitespace character (`contFold`).  First conjunct: at any point of the
header scan (any previous headers `acc`, any following lines `rest`), a run
of continuation lines (whitespace-led, non-blank, not matching the
key-value regex) folds into the last header entry exactly as described.
Second conjunct: end-to-end, a block consisting of one `key: value` line
followed by such continuation lines, a blank line and a body parses to the
single header with the folded value and that body. -/
theorem c5_folded_values_reconstructed :
    (∀ conts : List String,
      (∀ c ∈ conts, pyBlank c = false ∧ kvMatch c = none ∧ wsLed c = true) →
      ∀ (rest : List String) (acc : List (String × String)) (k v : String),
        parseHeaders (conts ++ rest) (acc ++ [(k, v)]) =
        parseHeaders rest (acc ++ [(k, conts.foldl contFold v)])) ∧
    (∀ (l0 k v : String) (conts : List String) (blank : String) (body : List String),
      kvMatch l0 = some (k, v) →
      (∀ c ∈ conts, pyBlank c = false ∧ kvMatch c = none ∧ wsLed c = true) →
      pyBlank blank = true →
      read_mimeL (l0 :: (conts ++ blank :: body)) =
        .ok ([(k, conts.foldl contFold v)], body)) := by
  refine ⟨parseHeaders_contFold, ?_⟩
  intro l0 k v conts blank body hkv hconts hblank
  unfold read_mimeL
  rw [parseHeaders, kvMatch_not_blank hkv]
  simp only [Bool.false_eq_true, if_false, hkv]
  have := parseHeaders_contFold conts hconts (blank :: body) [] k v
  simp only [List.nil_append] at this ⊢
  rw [this, parseHeaders, hblank]
  simp

/-- Witness for C5 at a concrete folded block. -/
theorem c5_folded_values_reconstructed_witness :
    kvMatch "name: hello" = some ("name", "hello") ∧
    (∀ c ∈ [" world continued"],
      pyBlank c = false ∧ kvMatch c = none ∧ wsLed c = true) ∧
    read_mimeL ["name: hello", " world continued", "", "b"] =
      .ok ([("name", "hello world continued")], ["b"]) :=
  ⟨by decide, by decide,
    c5_folded_values_reconstructed.2 "name: hello" "name" "hello"
      [" world continued"] "" ["b"] (by decide) (by decide) (by decide)⟩

theorem noNl_mem {l : List Char} {x : Char} (h : noNl l = true) (hx : x ∈ l) : x ≠ '\n' := by
  unfold noNl at h
  rw [List.all_eq_true] at h
  exact of_decide_eq_true (h x hx)

theorem noNl_sublist {l1 l2 : List Char} (hs : l1.Sublist l2) (h : noNl l2 = true) :
    noNl l1 = true := by
  unfold noNl at h ⊢
  rw [List.all_eq_true] at h ⊢
  exact fun x hx => h x (hs.mem hx)

/-- The shape characterization of `_member_re` matching, on the character
list of the filename. -/
theorem memberMatchL_isSome_iff (cs : List Char) :
    (memberMatchL cs).isSome = true ↔
    (∃ (d1 d2 d3 d4 : Char) (id : List Char) (c : Char) (tail : List Char),
      cs = d1 :: d2 :: d3 :: d4 :: '_' :: (id ++ c :: 't' :: 'x' :: 't' :: tail) ∧
      d1.isDigit ∧ d2.isDigit ∧ d3.isDigit ∧ d4.isDigit ∧
      noNl id ∧ c ≠ '\n' ∧ (tail = [] ∨ tail = ['\n'])) := by
  constructor
  · intro h
    rcases cs with _ | ⟨d1, _ | ⟨d2, _ | ⟨d3, _ | ⟨d4, _ | ⟨u, rest⟩⟩⟩⟩⟩ <;>
      simp only [memberMatchL, Option.isSome_none] at h <;> try exact absurd h (by decide)
    by_cases hP : d1.isDigit ∧ d2.isDigit ∧ d3.isDigit ∧ d4.isDigit ∧ u = '_'
    · rw [if_pos hP] at h
      obtain ⟨hd1, hd2, hd3, hd4, hu⟩ := hP
      subst hu
      by_cases hB : 5 ≤ rest.length ∧
          rest.drop (rest.length - 4) = ['t', 'x', 't', '\n'] ∧
          noNl (rest.take (rest.length - 4))
      · obtain ⟨h5, hdrop, hnl⟩ := hB
        have hlen : (rest.take (rest.length - 4)).length = rest.length - 4 := by
          rw [List.length_take]; omega
        have hne : rest.take (rest.length - 4) ≠ [] := by
          intro hcon
          rw [hcon] at hlen
          simp at hlen
          omega
        refine ⟨d1, d2, d3, d4, (rest.take (rest.length - 4)).dropLast,
          (rest.take (rest.length - 4)).getLast hne, ['\n'], ?_, hd1, hd2, hd3, hd4,
          noNl_sublist (List.dropLast_sublist _) hnl,
          noNl_mem hnl (List.getLast_mem hne), Or.inr rfl⟩
        have hrw : (rest.take (rest.length - 4)).dropLast ++
            ((rest.take (rest.length - 4)).getLast hne) :: 't' :: 'x' :: 't' :: ['\n'] =
            rest := by
          rw [show ((rest.take (rest.length - 4)).getLast hne) :: 't' :: 'x' :: 't' :: ['\n'] =
            [(rest.take (rest.length - 4)).getLast hne] ++ ['t', 'x', 't', '\n'] from rfl]
          rw [← List.append_assoc, List.dropLast_append_getLast hne, ← hdrop,
            List.take_append_drop]
        rw [hrw]
      · rw [if_neg hB] at h
        by_cases hA : 4 ≤ rest.length ∧ rest.drop (rest.length - 3) = ['t', 'x', 't'] ∧
            noNl (rest.take (rest.length - 3))
        · obtain ⟨h4, hdrop, hnl⟩ := hA
          have hlen : (rest.take (rest.length - 3)).length = rest.length - 3 := by
            rw [List.length_take]; omega
          have hne : rest.take (rest.length - 3) ≠ [] := by
            intro hcon
            rw [hcon] at hlen
            simp at hlen
            omega
          refine ⟨d1, d2, d3, d4, (rest.take (rest.length - 3)).dropLast,
            (rest.take (rest.length - 3)).getLast hne, [], ?_, hd1, hd2, hd3, hd4,
            noNl_sublist (List.dropLast_sublist _) hnl,
            noNl_mem hnl (List.getLast_mem hne), Or.inl rfl⟩
          have hrw : (rest.take (rest.length - 3)).dropLast ++
              ((rest.take (rest.length - 3)).getLast hne) :: 't' :: 'x' :: 't' :: ([] : List Char) =
              rest := by
            rw [show ((rest.take (rest.length - 3)).getLast hne) :: 't' :: 'x' :: 't' :: ([] : List Char) =
              [(rest.take (rest.length - 3)).getLast hne] ++ ['t', 'x', 't'] from rfl]
            rw [← List.append_assoc, List.dropLast_append_getLast hne, ← hdrop,
              List.take_append_drop]
          rw [hrw]
        · rw [if_neg hA] at h
          exact absurd h (by decide)
    · rw [if_neg hP] at h
      exact absurd h (by decide)
  · rintro ⟨d1, d2, d3, d4, id, c, tail, rfl, hd1, hd2, hd3, hd4, hid, hc, htail⟩
    have hcons : c :: 't' :: 'x' :: 't' :: tail = [c] ++ ('t' :: 'x' :: 't' :: tail) := rfl
    have hassoc : id ++ c :: 't' :: 'x' :: 't' :: tail =
        (id ++ [c]) ++ ('t' :: 'x' :: 't' :: tail) := by
      rw [hcons, List.append_assoc]
    have hnlc : noNl (id ++ [c]) = true := by
      unfold noNl at hid ⊢
      rw [List.all_eq_true] at hid ⊢
      intro x hx
      rcases List.mem_append.1 hx with hx | hx
      · exact hid x hx
      · simp at hx
        subst hx
        exact decide_eq_true hc
    simp only [memberMatchL]
    rw [if_pos ⟨hd1, hd2, hd3, hd4, by trivial⟩]
    rcases htail with rfl | rfl
    · have hn : (id ++ c :: 't' :: 'x' :: 't' :: ([] : List Char)).length = id.length + 4 := by
        simp
      have hBfalse : ¬(5 ≤ (id ++ c :: 't' :: 'x' :: 't' :: ([] : List Char)).length ∧
          (id ++ c :: 't' :: 'x' :: 't' :: ([] : List Char)).drop
            ((id ++ c :: 't' :: 'x' :: 't' :: ([] : List Char)).length - 4) = ['t', 'x', 't', '\n'] ∧
          noNl ((id ++ c :: 't' :: 'x' :: 't' :: ([] : List Char)).take
            ((id ++ c :: 't' :: 'x' :: 't' :: ([] : List Char)).length - 4))) := by
        rintro ⟨hB5, hBdrop, _⟩
        rw [hn] at hBdrop
        have : (id ++ c :: 't' :: 'x' :: 't' :: ([] : List Char)).drop (id.length + 4 - 4) =
            c :: 't' :: 'x' :: 't' :: ([] : List Char) := by
          rw [show id.length + 4 - 4 = id.length from rfl]
          exact List.drop_left' rfl
        rw [this] at hBdrop
        simp at hBdrop
      rw [if_neg hBfalse]
      have hdropA : (id ++ c :: 't' :: 'x' :: 't' :: ([] : List Char)).drop
          ((id ++ c :: 't' :: 'x' :: 't' :: ([] : List Char)).length - 3) = ['t', 'x', 't'] := by
        rw [hn, hassoc]
        have : id.length + 4 - 3 = (id ++ [c]).length := by simp
        rw [this]
        exact List.drop_left' rfl
      have htakeA : (id ++ c :: 't' :: 'x' :: 't' :: ([] : List Char)).take
          ((id ++ c :: 't' :: 'x' :: 't' :: ([] : List Char)).length - 3) = id ++ [c] := by
        rw [hn, hassoc]
        have : id.length + 4 - 3 = (id ++ [c]).length := by simp
        rw [this]
        exact List.take_left' rfl
      rw [if_pos ⟨by rw [hn]; omega, hdropA, by rw [htakeA]; exact hnlc⟩]
      rfl
    · have hn : (id ++ c :: 't' :: 'x' :: 't' :: ['\n']).length = id.length + 5 := by
        simp
      have hdropB : (id ++ c :: 't' :: 'x' :: 't' :: ['\n']).drop
          ((id ++ c :: 't' :: 'x' :: 't' :: ['\n']).length - 4) = ['t', 'x', 't', '\n'] := by
        rw [hn, hassoc]
        have : id.length + 5 - 4 = (id ++ [c]).length := by simp
        rw [this]
        exact List.drop_left' rfl
      have htakeB : (id ++ c :: 't' :: 'x' :: 't' :: ['\n']).take
          ((id ++ c :: 't' :: 'x' :: 't' :: ['\n']).length - 4) = id ++ [c] := by
        rw [hn, hassoc]
        have : id.length + 5 - 4 = (id ++ [c]).length := by simp
        rw [this]
        exact List.take_left' rfl
      rw [if_pos ⟨by rw [hn]; omega, hdropB, by rw [htakeB]; exact hnlc⟩]
      rfl

/-- C7 counterexample: the filename `0001_atxt` — which does NOT have the
literal-dot shape `<4-digit-number>_<id>.txt` claimed by the spec — is
nevertheless admitted by `_member_re`, because the dot in the pattern is
unescaped and matches the character `a`. -/
theorem c7_counterexample :
    (memberMatch "0001_atxt").isSome = true ∧ memberShapeSpecB "0001_atxt" = false := by
  constructor
  · rfl
  · rfl

/-- C7 amended: `read_members` admits a filename iff it consists of four
decimal digits, an underscore, an id containing no newline, one arbitrary
non-newline character (the unescaped `.` of `_member_re`, not necessarily
a literal dot), then `txt`, optionally followed by one final newline; and
every filename it does not admit is skipped by the scan without error. -/
theorem c7_amended_filename_admission :
    (∀ fname : String, (memberMatch fname).isSome = true ↔ memberShapeAmended fname) ∧
    (∀ (memberPath fname : String) (ls : List String) (rest : List (String × List String)),
      memberMatch fname = none →
      read_membersGo memberPath ((fname, ls) :: rest) = read_membersGo memberPath rest) := by
  constructor
  · intro fname
    exact memberMatchL_isSome_iff fname.data
  · intro memberPath fname ls rest h
    simp only [read_membersGo, h]

theorem syncTag_snd {α : Type} [DecidableEq α] (current : List α) (pending : α → Bool)
    (m : α) : (syncTag current pending m).2 = m := by
  unfold syncTag
  split
  · split <;> rfl
  · rfl

theorem syncTag_fst {α : Type} [DecidableEq α] (current : List α) (pending : α → Bool)
    (m : α) : (syncTag current pending m).1 = "added" ∨
      (syncTag current pending m).1 = "pending" ∨
      (syncTag current pending m).1 = "retained" := by
  unfold syncTag
  split
  · split
    · right; left; rfl
    · left; rfl
  · right; right; rfl

theorem filter_eq_of_nodup {α : Type} [DecidableEq α] {l : List α} {m : α}
    (h : l.Nodup) (hm : m ∈ l) : l.filter (fun x => decide (x = m)) = [m] := by
  induction l with
  | nil => simp at hm
  | cons a t ih =>
    rw [List.nodup_cons] at h
    rcases List.mem_cons.1 hm with rfl | hmt
    · rw [List.filter_cons_of_pos (by simp)]
      have ht : t.filter (fun x => decide (x = m)) = [] := by
        rw [List.filter_eq_nil_iff]
        intro x hx
        simp only [decide_eq_true_eq]
        intro hxa
        exact h.1 (hxa ▸ hx)
      rw [ht]
    · have hne : a ≠ m := fun hc => h.1 (hc ▸ hmt)
      rw [List.filter_cons_of_neg (by simp [hne])]
      exact ih h.2 hmt

/-- C1: in one reconciliation pass over a duplicate-free intended identity
set `I` (in its set-iteration order `intended`) and a duplicate-free
current set `C` (order `current`), the emitted action list contains
exactly one action for each element of `I`, tagged `added`, `pending` or
`retained`; exactly the action `(deleted, m)` for each `m ∈ C − I`; and
every action concerns an element of `I` or of `C` — no other actions. -/
theorem c1_reconciliation_completeness {α : Type} [DecidableEq α]
    (intended current : List α) (pending : α → Bool)
    (hI : intended.Nodup) (hC : current.Nodup) :
    (∀ m ∈ intended,
      ((sync_membersM intended current pending).filter (fun a => decide (a.2 = m))).length = 1 ∧
      (∀ a ∈ sync_membersM intended current pending, a.2 = m →
        a.1 = "added" ∨ a.1 = "pending" ∨ a.1 = "retained")) ∧
    (∀ m ∈ current, m ∉ intended →
      (sync_membersM intended current pending).filter (fun a => decide (a.2 = m)) =
        [("deleted", m)]) ∧
    (∀ a ∈ sync_membersM intended current pending, a.2 ∈ intended ∨ a.2 ∈ current) := by
  have hfilter1 : ∀ m : α,
      (intended.map (syncTag current pending)).filter (fun a => decide (a.2 = m)) =
      (intended.filter (fun x => decide (x = m))).map (syncTag current pending) := by
    intro m
    rw [List.filter_map]
    congr 1
    apply List.filter_congr
    intro x _
    simp [Function.comp, syncTag_snd]
  have hfilter2 : ∀ m : α,
      ((current.filter (fun x => decide (x ∉ intended))).map
        (fun x => (("deleted", x) : String × α))).filter (fun a => decide (a.2 = m)) =
      ((current.filter (fun x => decide (x ∉ intended))).filter
        (fun x => decide (x = m))).map (fun x => (("deleted", x) : String × α)) := by
    intro m
    rw [List.filter_map]
    rfl
  refine ⟨?_, ?_, ?_⟩
  · intro m hm
    constructor
    · rw [sync_membersM, List.filter_append, hfilter1, hfilter2]
      have h2 : (current.filter (fun x => decide (x ∉ intended))).filter
          (fun x => decide (x = m)) = [] := by
        rw [List.filter_eq_nil_iff]
        intro x hx
        simp only [decide_eq_true_eq]
        intro hxm
        have := List.mem_filter.1 hx
        exact (of_decide_eq_true this.2) (hxm ▸ hm)
      rw [filter_eq_of_nodup hI hm, h2]
      rfl
    · intro a ha ham
      rcases List.mem_append.1 ha with h | h
      · obtain ⟨x, _, rfl⟩ := List.mem_map.1 h
        exact syncTag_fst current pending x
      · obtain ⟨x, hx, rfl⟩ := List.mem_map.1 h
        have hxni : x ∉ intended := of_decide_eq_true (List.mem_filter.1 hx).2
        have hxm : x ∈ intended := by
          have h2 : x = m := ham
          rw [h2]
          exact hm
        exact (hxni hxm).elim
  · intro m hmc hmi
    rw [sync_membersM, List.filter_append, hfilter1, hfilter2]
    have h1 : intended.filter (fun x => decide (x = m)) = [] := by
      rw [List.filter_eq_nil_iff]
      intro x hx
      simp only [decide_eq_true_eq]
      intro hxm
      exact hmi (hxm ▸ hx)
    have h2 : (current.filter (fun x => decide (x ∉ intended))).filter
        (fun x => decide (x = m)) = [m] := by
      apply filter_eq_of_nodup (hC.filter _)
      rw [List.mem_filter]
      exact ⟨hmc, decide_eq_true hmi⟩
    rw [h1, h2]
    rfl
  · intro a ha
    rcases List.mem_append.1 ha with h | h
    · obtain ⟨x, hx, rfl⟩ := List.mem_map.1 h
      rw [syncTag_snd]
      exact Or.inl hx
    · obtain ⟨x, hx, rfl⟩ := List.mem_map.1 h
      exact Or.inr (List.mem_of_mem_filter hx)

/-- Witness for C1 at concrete sets. -/
theorem c1_reconciliation_completeness_witness :
    (["alice", "bob", "carol"] : List String).Nodup ∧
    (["bob", "dave"] : List String).Nodup ∧
    ((∀ m ∈ ["alice", "bob", "carol"],
      ((sync_membersM ["alice", "bob", "carol"] ["bob", "dave"] (fun _ => false)).filter
        (fun a => decide (a.2 = m))).length = 1 ∧
      (∀ a ∈ sync_membersM ["alice", "bob", "carol"] ["bob", "dave"] (fun _ => false),
        a.2 = m → a.1 = "added" ∨ a.1 = "pending" ∨ a.1 = "retained")) ∧
    (∀ m ∈ ["bob", "dave"], m ∉ ["alice", "bob", "carol"] →
      (sync_membersM ["alice", "bob", "carol"] ["bob", "dave"] (fun _ => false)).filter
        (fun a => decide (a.2 = m)) = [("deleted", m)]) ∧
    (∀ a ∈ sync_membersM ["alice", "bob", "carol"] ["bob", "dave"] (fun _ => false),
      a.2 ∈ ["alice", "bob", "carol"] ∨ a.2 ∈ ["bob", "dave"])) :=
  ⟨by decide, by decide,
    c1_reconciliation_completeness ["alice", "bob", "carol"] ["bob", "dave"]
      (fun _ => false) (by decide) (by decide)⟩

/-- C2 counterexample: `sync_members` iterates the unordered Python set
`set(get_intended_members(metaview))`, not the registry-ordered list, so
the pass does not process intended identities in ascending-member-number
order: under the set-iteration order `[carol, alice, bob]` of the intended
set `{alice, bob, carol}` — a legitimate iteration order for a hash set —
the emitted sequence differs from the registry-ordered sequence claimed. -/
theorem c2_counterexample :
    sync_membersM ["carol", "alice", "bob"] ["bob", "dave"] (fun _ => false) ≠
    [("added", "alice"), ("retained", "bob"), ("added", "carol"), ("deleted", "dave")] := by
  decide

/-- C2 amended: the pass emits one action per intended identity in the
(unspecified) set-iteration order, and only afterwards the `deleted`
actions for the current-only identities; in particular, for the claim's
example every set-iteration order of the intended set yields the claimed
four actions up to permutation (intended-tagged actions first, `deleted`
actions last), rather than exactly the claimed registry-ordered
sequence. -/
theorem c2_amended_phase_order :
    (∀ (α : Type) [DecidableEq α] (intended current : List α) (pending : α → Bool),
      ∃ p1 p2, sync_membersM intended current pending = p1 ++ p2 ∧
        p1.length = intended.length ∧
        (∀ a ∈ p1, a.1 = "added" ∨ a.1 = "pending" ∨ a.1 = "retained") ∧
        (∀ a ∈ p2, a.1 = "deleted") ∧
        p2.map Prod.snd = current.filter (fun m => decide (m ∉ intended))) ∧
    (∀ order : List String, order.Perm ["alice", "bob", "carol"] →
      (sync_membersM order ["bob", "dave"] (fun _ => false)).Perm
        [("added", "alice"), ("retained", "bob"), ("added", "carol"), ("deleted", "dave")]) := by
  constructor
  · intro α _ intended current pending
    refine ⟨intended.map (syncTag current pending),
      (current.filter (fun m => decide (m ∉ intended))).map (fun m => ("deleted", m)),
      rfl, List.length_map intended _, ?_, ?_, ?_⟩
    · intro a ha
      obtain ⟨x, _, rfl⟩ := List.mem_map.1 ha
      exact syncTag_fst current pending x
    · intro a ha
      obtain ⟨x, _, rfl⟩ := List.mem_map.1 ha
      rfl
    · rw [List.map_map]
      simp
  · intro order hperm
    unfold sync_membersM
    have hbob : "bob" ∈ order := hperm.mem_iff.2 (by decide)
    have hdave : ¬ ("dave" ∈ order) := fun hc => by
      have := hperm.mem_iff.1 hc
      simp at this
    have hfilter : (["bob", "dave"] : List String).filter (fun m => decide (m ∉ order)) =
        ["dave"] := by
      rw [List.filter_cons_of_neg (by simp [hbob]), List.filter_cons_of_pos (by simp [hdave])]
      rfl
    rw [hfilter]
    have h1 : (order.map (syncTag ["bob", "dave"] (fun _ => false))).Perm
        ((["alice", "bob", "carol"] : List String).map
          (syncTag ["bob", "dave"] (fun _ => false))) := hperm.map _
    have h2 : (["alice", "bob", "carol"] : List String).map
        (syncTag ["bob", "dave"] (fun _ => false)) =
        [("added", "alice"), ("retained", "bob"), ("added", "carol")] := by decide
    rw [h2] at h1
    exact h1.append_right [("deleted", "dave")]

/-- Witness for the amended C2 at a concrete set-iteration order. -/
theorem c2_amended_phase_order_witness :
    (["carol", "alice", "bob"] : List String).Perm ["alice", "bob", "carol"] ∧
    (sync_membersM ["carol", "alice", "bob"] ["bob", "dave"] (fun _ => false)).Perm
      [("added", "alice"), ("retained", "bob"), ("added", "carol"), ("deleted", "dave")] :=
  ⟨by decide, c2_amended_phase_order.2 ["carol", "alice", "bob"] (by decide)⟩

theorem dictSet_map_fst {κ ν : Type} [DecidableEq κ] (d : List (κ × ν)) (k : κ) (v : ν) :
    (dictSet d k v).map Prod.fst =
      if d.any (fun p => decide (p.1 = k)) then d.map Prod.fst
      else d.map Prod.fst ++ [k] := by
  unfold dictSet
  split
  · rw [List.map_map]
    apply List.map_congr_left
    intro p _
    simp only [Function.comp]
    split
    · simp [*]
    · rfl
  · rw [List.map_append]
    rfl

theorem dictSet_fst_nodup {κ ν : Type} [DecidableEq κ] (d : List (κ × ν)) (k : κ) (v : ν)
    (h : (d.map Prod.fst).Nodup) : ((dictSet d k v).map Prod.fst).Nodup := by
  rw [dictSet_map_fst]
  split
  · exact h
  · rw [List.nodup_append]
    refine ⟨h, List.nodup_singleton k, ?_⟩
    intro x hx
    simp only [List.mem_singleton]
    intro hxk
    subst hxk
    obtain ⟨p, hp, hpk⟩ := List.mem_map.1 hx
    have hany : d.any (fun q => decide (q.1 = x)) = true :=
      List.any_eq_true.2 ⟨p, hp, decide_eq_true hpk⟩
    simp_all

theorem dictSet_mem {κ ν : Type} [DecidableEq κ] {d : List (κ × ν)} {k : κ} {v : ν}
    {p : κ × ν} (h : p ∈ dictSet d k v) : p = (k, v) ∨ p ∈ d := by
  unfold dictSet at h
  split at h
  · obtain ⟨q, hq, hqe⟩ := List.mem_map.1 h
    by_cases hq1 : q.1 = k
    · rw [if_pos hq1] at hqe
      exact Or.inl hqe.symm
    · rw [if_neg hq1] at hqe
      exact Or.inr (hqe ▸ hq)
  · rcases List.mem_append.1 h with h | h
    · exact Or.inr h
    · exact Or.inl (List.mem_singleton.1 h)

theorem mkMetaView_numIdx (ckhash : List String → String) (members : List MemberM) :
    NumIdx (mkMetaView ckhash members).members_by_num := by
  suffices h : ∀ mv0 : MetaViewM, NumIdx mv0.members_by_num →
      NumIdx ((members.foldl (indexMember ckhash) mv0).members_by_num) by
    exact h emptyMetaView ⟨List.nodup_nil, by simp [emptyMetaView]⟩
  induction members with
  | nil => intro mv0 h0; exact h0
  | cons mem rest ih =>
    intro mv0 h0
    rw [List.foldl_cons]
    apply ih
    constructor
    · exact dictSet_fst_nodup _ _ _ h0.1
    · intro p hp
      rcases dictSet_mem hp with rfl | hp
      · rfl
      · exact h0.2 p hp

theorem iter_members_pairwise_lt (mv : MetaViewM) (h : NumIdx mv.members_by_num) :
    List.Pairwise (fun a b : MemberM => a.num < b.num) (iter_membersM mv) := by
  unfold iter_membersM
  set s := List.insertionSort numKeyLE mv.members_by_num with hs
  have hsorted : List.Pairwise numKeyLE s := List.sorted_insertionSort numKeyLE _
  have hperm : s.Perm mv.members_by_num := List.perm_insertionSort numKeyLE _
  have hnodup : (s.map Prod.fst).Nodup := ((hperm.map Prod.fst).nodup_iff).2 h.1
  have hne : List.Pairwise (fun a b : Nat × MemberM => a.1 ≠ b.1) s :=
    (List.pairwise_map).1 hnodup
  have hlt : List.Pairwise (fun a b : Nat × MemberM => a.1 < b.1) s :=
    (hsorted.and hne).imp (fun hab => lt_of_le_of_ne hab.1 hab.2)
  have hkey : ∀ p ∈ s, p.1 = p.2.num := fun p hp => h.2 p (hperm.subset hp)
  rw [List.pairwise_map]
  exact hlt.imp_of_mem (fun ha hb hr => by
    rw [hkey _ ha, hkey _ hb] at hr
    exact hr)

/-- C3 counterexample: a registry whose sole member has no GitHub handle.
The spec claims the intended list equals the handles of `iter_members()`
with handle-less members dropped (so here the empty list), but
`get_intended_members` keeps the absent handle and returns `[None]`. -/
theorem c3_counterexample :
    get_intended_membersM (mkMetaView (fun _ => "") [⟨1, "a", [], "p", []⟩]) =
      [none] ∧
    ((iter_membersM (mkMetaView (fun _ => "") [⟨1, "a", [], "p", []⟩])).filterMap
      MemberM.github).map some = [] := by
  constructor
  · rfl
  · rfl

/-- C3 amended: the intended identity list fed to the reconciler equals the
sequence of each member's GitHub handle in `iter_members()`'s
ascending-number order, INCLUDING an absent (`None`) entry for every member
without a handle (nothing is dropped). -/
theorem c3_amended_intended_list (ckhash : List String → String) (members : List MemberM) :
    get_intended_membersM (mkMetaView ckhash members) =
      (iter_membersM (mkMetaView ckhash members)).map MemberM.github := by
  unfold get_intended_membersM
  have hlt := iter_members_pairwise_lt _ (mkMetaView_numIdx ckhash members)
  have hsorted : List.Sorted intendedLE
      ((iter_membersM (mkMetaView ckhash members)).map (fun m => (m.num, m.github))) := by
    rw [List.Sorted, List.pairwise_map]
    exact hlt.imp (fun hab => Or.inl hab)
  rw [hsorted.insertionSort_eq, List.map_map]
  rfl

theorem dictGet_dictSet_self {κ ν : Type} [DecidableEq κ] (d : List (κ × ν)) (k : κ) (v : ν) :
    dictGet (dictSet d k v) k = some v := by
  unfold dictSet dictGet
  split
  · rename_i hany
    rw [List.find?_map _ d]
    have hcong : ((fun p : κ × ν => decide (p.1 = k)) ∘
        (fun p : κ × ν => if p.1 = k then (k, v) else p)) =
        (fun q : κ × ν => decide (q.1 = k)) := by
      funext q
      by_cases hq : q.1 = k <;> simp [Function.comp, hq]
    rw [hcong]
    obtain ⟨q0, hq0mem, hq0⟩ := List.any_eq_true.1 hany
    cases hfind : d.find? (fun q => decide (q.1 = k)) with
    | none =>
      rw [List.find?_eq_none] at hfind
      exact absurd hq0 (hfind q0 hq0mem)
    | some q1 =>
      have hk0 := List.find?_some hfind
      have hk1 : q1.1 = k := of_decide_eq_true hk0
      simp [hk1]
  · rename_i hany
    rw [List.find?_append]
    have hnone : d.find? (fun p => decide (p.1 = k)) = none := by
      rw [List.find?_eq_none]
      intro x hx hpx
      exact hany (List.any_eq_true.2 ⟨x, hx, hpx⟩)
    rw [hnone]
    simp [List.find?]

theorem dictGet_dictSet_other {κ ν : Type} [DecidableEq κ] (d : List (κ × ν))
    (k k' : κ) (v : ν) (hne : k' ≠ k) : dictGet (dictSet d k v) k' = dictGet d k' := by
  unfold dictSet dictGet
  split
  · rw [List.find?_map _ d]
    have hcong : ((fun p : κ × ν => decide (p.1 = k')) ∘
        (fun p : κ × ν => if p.1 = k then (k, v) else p)) =
        (fun q : κ × ν => decide (q.1 = k')) := by
      funext q
      by_cases hq : q.1 = k
      · simp [Function.comp, hq]
      · simp [Function.comp, hq]
    rw [hcong]
    cases hfind : d.find? (fun q => decide (q.1 = k')) with
    | none => rfl
    | some q1 =>
      have hk0 := List.find?_some hfind
      have hk1 : q1.1 = k' := of_decide_eq_true hk0
      have hq1k : ¬ (q1.1 = k) := by rw [hk1]; exact hne
      simp [hq1k]
  · rw [List.find?_append]
    have hsing : ([(k, v)] : List (κ × ν)).find? (fun p => decide (p.1 = k')) = none := by
      have : ¬ (k = k') := fun hc => hne hc.symm
      simp [List.find?, this]
    rw [hsing]
    simp

theorem foldIndex_by_path_preserve (ckhash : List String → String) (ms : List MemberM)
    (k : String) (h : ∀ m ∈ ms, m.path ≠ k) : ∀ mv0 : MetaViewM,
    dictGet ((ms.foldl (indexMember ckhash) mv0)).members_by_path k =
      dictGet mv0.members_by_path k := by
  induction ms with
  | nil => intro mv0; rfl
  | cons mem rest ih =>
    intro mv0
    rw [List.foldl_cons]
    rw [ih (fun m hm => h m (List.mem_cons_of_mem _ hm)) _]
    show dictGet (dictSet mv0.members_by_path mem.path mem) k = _
    exact dictGet_dictSet_other _ _ _ _ (fun hk => h mem (by simp) hk.symm)

theorem foldIndex_by_checksum_preserve (ckhash : List String → String) (ms : List MemberM)
    (k : String) (h : ∀ m ∈ ms, ckhash m.content ≠ k) : ∀ mv0 : MetaViewM,
    dictGet ((ms.foldl (indexMember ckhash) mv0)).members_by_checksum k =
      dictGet mv0.members_by_checksum k := by
  induction ms with
  | nil => intro mv0; rfl
  | cons mem rest ih =>
    intro mv0
    rw [List.foldl_cons]
    rw [ih (fun m hm => h m (List.mem_cons_of_mem _ hm)) _]
    show dictGet (dictSet mv0.members_by_checksum (ckhash mem.content) mem) k = _
    exact dictGet_dictSet_other _ _ _ _ (fun hk => h mem (by simp) hk.symm)

theorem mkMetaView_by_path_hit (ckhash : List String → String) (members : List MemberM)
    (m : MemberM) (hm : m ∈ members)
    (huniq : ∀ m2 ∈ members, m2.path = m.path → m2 = m) :
    dictGet (mkMetaView ckhash members).members_by_path m.path = some m := by
  have key : ∀ ms : List MemberM, m ∈ ms → (∀ m2 ∈ ms, m2.path = m.path → m2 = m) →
      ∀ mv0 : MetaViewM,
      dictGet ((ms.foldl (indexMember ckhash) mv0)).members_by_path m.path = some m := by
    intro ms
    induction ms with
    | nil => intro hm' _ _; simp at hm'
    | cons mem rest ih =>
      intro hm' huniq' mv0
      rw [List.foldl_cons]
      by_cases hmr : m ∈ rest
      · exact ih hmr (fun m2 h2 => huniq' m2 (List.mem_cons_of_mem _ h2)) _
      · have hmem : mem = m := by
          rcases List.mem_cons.1 hm' with h | h
          · exact h.symm
          · exact absurd h hmr
        have hrest : ∀ m2 ∈ rest, m2.path ≠ m.path := by
          intro m2 h2 hp
          have hm2 : m2 = m := huniq' m2 (List.mem_cons_of_mem _ h2) hp
          exact hmr (hm2 ▸ h2)
        rw [foldIndex_by_path_preserve ckhash rest m.path hrest _]
        show dictGet (dictSet mv0.members_by_path mem.path mem) m.path = some m
        rw [hmem]
        exact dictGet_dictSet_self _ _ _
  exact key members hm huniq emptyMetaView

theorem mkMetaView_by_checksum_hit (ckhash : List String → String) (members : List MemberM)
    (m : MemberM) (hm : m ∈ members)
    (huniq : ∀ m2 ∈ members, ckhash m2.content = ckhash m.content → m2 = m) :
    dictGet (mkMetaView ckhash members).members_by_checksum (ckhash m.content) = some m := by
  have key : ∀ ms : List MemberM, m ∈ ms →
      (∀ m2 ∈ ms, ckhash m2.content = ckhash m.content → m2 = m) →
      ∀ mv0 : MetaViewM,
      dictGet ((ms.foldl (indexMember ckhash) mv0)).members_by_checksum (ckhash m.content) =
        some m := by
    intro ms
    induction ms with
    | nil => intro hm' _ _; simp at hm'
    | cons mem rest ih =>
      intro hm' huniq' mv0
      rw [List.foldl_cons]
      by_cases hmr : m ∈ rest
      · exact ih hmr (fun m2 h2 => huniq' m2 (List.mem_cons_of_mem _ h2)) _
      · have hmem : mem = m := by
          rcases List.mem_cons.1 hm' with h | h
          · exact h.symm
          · exact absurd h hmr
        have hrest : ∀ m2 ∈ rest, ckhash m2.content ≠ ckhash m.content := by
          intro m2 h2 hp
          have hm2 : m2 = m := huniq' m2 (List.mem_cons_of_mem _ h2) hp
          exact hmr (hm2 ▸ h2)
        rw [foldIndex_by_checksum_preserve ckhash rest (ckhash m.content) hrest _]
        show dictGet (dictSet mv0.members_by_checksum (ckhash mem.content) mem)
          (ckhash m.content) = some m
        rw [hmem]
        exact dictGet_dictSet_self _ _ _
  exact key members hm huniq emptyMetaView

theorem mkMetaView_by_checksum_none (ckhash : List String → String) (members : List MemberM)
    (k : String) (h : ∀ m ∈ members, ckhash m.content ≠ k) :
    dictGet (mkMetaView ckhash members).members_by_checksum k = none := by
  rw [mkMetaView, foldIndex_by_checksum_preserve ckhash members k h emptyMetaView]
  rfl

/-- C6: `locate_linked_member` (over the abstract filesystem boundary
`Fsys` and checksum function `ckhash`) resolves identities as specified:
(1) on a symbolic link whose resolved, canonicalized target is the path of
a registered member (registered paths being unique to that member), it
returns that member; (2) on a regular file whose content is exactly a
registered member's file content (that member's checksum being unique to
it), it returns that member through the checksum index; (3) on a file
whose content's checksum matches no member, it returns absent (`none`)
rather than raising. -/
theorem c6_locate_linked_member (fs : Fsys) (ckhash : List String → String)
    (members : List MemberM) (path : String) :
    (∀ (target : String) (m : MemberM),
      fs.readlink path = some target →
      fs.normreal (fs.joinPath (fs.dirname path) target) = m.path →
      m ∈ members →
      (∀ m2 ∈ members, m2.path = m.path → m2 = m) →
      locate_linked_member fs ckhash (mkMetaView ckhash members) path = some m) ∧
    (∀ m : MemberM,
      fs.readlink path = none →
      fs.readContent (fs.normreal path) = some m.content →
      m ∈ members →
      (∀ m2 ∈ members, ckhash m2.content = ckhash m.content → m2 = m) →
      locate_linked_member fs ckhash (mkMetaView ckhash members) path = some m) ∧
    (∀ content : List String,
      fs.readlink path = none →
      fs.readContent (fs.normreal path) = some content →
      (∀ m2 ∈ members, ckhash m2.content ≠ ckhash content) →
      locate_linked_member fs ckhash (mkMetaView ckhash members) path = none) := by
  refine ⟨?_, ?_, ?_⟩
  · intro target m hlink htarget hm huniq
    simp only [locate_linked_member, hlink]
    rw [htarget, mkMetaView_by_path_hit ckhash members m hm huniq]
  · intro m hlink hread hm huniq
    simp only [locate_linked_member, hlink, hread]
    rw [mkMetaView_by_checksum_hit ckhash members m hm huniq]
  · intro content hlink hread hmiss
    simp only [locate_linked_member, hlink, hread]
    rw [mkMetaView_by_checksum_none ckhash members (ckhash content) hmiss]

/-- Witness for C6: resolution through a symlink, through a byte-identical
copy, and the absent case, on a one-member registry. -/
theorem c6_locate_linked_member_witness :
    fsW.readlink "/pl" = some "t" ∧
    fsW.readContent (fsW.normreal "/f") = some m1W.content ∧
    (∀ m2 ∈ [m1W], ckW m2.content ≠ ckW ["zzz"]) ∧
    locate_linked_member fsW ckW (mkMetaView ckW [m1W]) "/pl" = some m1W ∧
    locate_linked_member fsW ckW (mkMetaView ckW [m1W]) "/f" = some m1W ∧
    locate_linked_member fsW ckW (mkMetaView ckW [m1W]) "/u" = none :=
  ⟨by decide, by decide, by decide,
    (c6_locate_linked_member fsW ckW [m1W] "/pl").1 "t" m1W (by decide) (by decide)
      (by decide) (by decide),
    (c6_locate_linked_member fsW ckW [m1W] "/f").2.1 m1W (by decide) (by decide)
      (by decide) (by decide),
    (c6_locate_linked_member fsW ckW [m1W] "/u").2.2 ["zzz"] (by decide) (by decide)
      (by decide)⟩

theorem parseHeaders_error_of_bad (pre : List String) (l : String) (post : List String)
    (hpre : ∀ x ∈ pre, pyBlank x = false) (hl : badHeaderLine l) :
    ∀ acc, ∃ e, parseHeaders (pre ++ l :: post) acc = .error e := by
  induction pre with
  | nil =>
    intro acc
    refine ⟨.invalid, ?_⟩
    show parseHeaders (l :: post) acc = _
    rw [parseHeaders, hl.1]
    simp only [Bool.false_eq_true, if_false, hl.2.1, hl.2.2]
  | cons x pre ih =>
    intro acc
    have hx := hpre x (by simp)
    have hpre' : ∀ y ∈ pre, pyBlank y = false := fun y hy => hpre y (by simp [hy])
    show ∃ e, parseHeaders (x :: (pre ++ l :: post)) acc = .error e
    rw [parseHeaders, hx]
    simp only [Bool.false_eq_true, if_false]
    cases hkv : kvMatch x with
    | some kv => exact ih hpre' (acc ++ [kv])
    | none =>
      by_cases hws : wsLed x = true
      · rw [hws]
        simp only [if_true]
        cases hgl : acc.getLast? with
        | some last => exact ih hpre' (acc.dropLast ++ [(last.1, contFold last.2 x)])
        | none => exact ⟨.indexError, rfl⟩
      · rw [Bool.not_eq_true] at hws
        rw [hws]
        exact ⟨.invalid, rfl⟩

theorem parseHeaders_invalid_of_bad (pre : List String) (l : String) (post : List String)
    (hpre : ∀ x ∈ pre, (kvMatch x).isSome) (hl : badHeaderLine l) :
    ∀ acc, parseHeaders (pre ++ l :: post) acc = .error .invalid := by
  induction pre with
  | nil =>
    intro acc
    show parseHeaders (l :: post) acc = _
    rw [parseHeaders, hl.1]
    simp only [Bool.false_eq_true, if_false, hl.2.1, hl.2.2]
  | cons x pre ih =>
    intro acc
    have hx := hpre x (by simp)
    obtain ⟨kv, hkv⟩ := Option.isSome_iff_exists.1 hx
    have hpre' : ∀ y ∈ pre, (kvMatch y).isSome := fun y hy => hpre y (by simp [hy])
    show parseHeaders (x :: (pre ++ l :: post)) acc = _
    rw [parseHeaders, kvMatch_not_blank hkv]
    simp only [Bool.false_eq_true, if_false, hkv]
    exact ih hpre' (acc ++ [kv])

theorem read_membersGo_error (memberPath : String) (dir : List (String × List String))
    (fname : String) (ls : List String) (e1 : PErr)
    (hmem : (fname, ls) ∈ dir) (hmatch : (memberMatch fname).isSome = true)
    (herr : read_mimeL ls = .error e1) :
    ∃ e, read_membersGo memberPath dir = .error e := by
  induction dir with
  | nil => simp at hmem
  | cons hd rest ih =>
    obtain ⟨f0, ls0⟩ := hd
    cases hmm : memberMatch f0 with
    | none =>
      simp only [read_membersGo, hmm]
      rcases List.mem_cons.1 hmem with heq | hmem'
      · have : fname = f0 := congrArg Prod.fst heq
        rw [this, hmm] at hmatch
        exact absurd hmatch (by decide)
      · exact ih hmem'
    | some p =>
      obtain ⟨numS, idS⟩ := p
      simp only [read_membersGo, hmm]
      rcases List.mem_cons.1 hmem with heq | hmem'
      · have hf : fname = f0 := congrArg Prod.fst heq
        have hls : ls = ls0 := congrArg Prod.snd heq
        rw [← hls, herr]
        exact ⟨e1, rfl⟩
      · cases hparse : read_mimeL ls0 with
        | error e2 => exact ⟨e2, rfl⟩
        | ok parsed =>
          obtain ⟨e3, he3⟩ := ih hmem'
          rw [he3]
          exact ⟨e3, rfl⟩

/-- C8 counterexample: a member file whose FIRST header line is
whitespace-led (before any `key: value` entry) and whose second line is
malformed.  The file contains a malformed header line in the claimed
sense, but registry construction aborts with the `IndexError` from
`headers[-1]`, not with the FormatError (`ValueError`) the claim
promises. -/
theorem c8_counterexample :
    mkMetaViewE (fun _ => "") "members" [("0001_a.txt", [" b", "c&d"])] =
      .error .indexError ∧
    mkMetaViewE (fun _ => "") "members" [("0001_a.txt", [" b", "c&d"])] ≠
      .error .invalid := by
  have h1 : mkMetaViewE (fun _ => "") "members" [("0001_a.txt", [" b", "c&d"])] =
      .error .indexError := rfl
  refine ⟨h1, ?_⟩
  rw [h1]
  intro hc
  have := Except.error.inj hc
  exact absurd this (by decide)

/-- C8 amended: if any member file admitted by the filename pattern
contains a malformed header line (non-blank, not `key: value`, not
whitespace-led) in its header section (all lines before it non-blank),
registry construction aborts with an error — it never skips the file and
never produces a registry value; and when every header line before the
malformed one is a `key: value` line, the error is precisely the
FormatError (`ValueError('Invalid mime data')`).  The deviation from the
claim as stated: if a whitespace-led line precedes the first `key: value`
entry, the abort is an `IndexError` instead of a FormatError. -/
theorem c8_amended_construction_aborts :
    (∀ (ckhash : List String → String) (memberPath : String)
      (dir : List (String × List String)) (fname : String)
      (ls pre post : List String) (l : String),
      (fname, ls) ∈ dir → (memberMatch fname).isSome = true →
      ls = pre ++ l :: post → (∀ x ∈ pre, pyBlank x = false) → badHeaderLine l →
      ∃ e, mkMetaViewE ckhash memberPath dir = .error e) ∧
    (∀ (ckhash : List String → String) (memberPath fname : String)
      (pre post : List String) (l : String),
      (memberMatch fname).isSome = true →
      (∀ x ∈ pre, (kvMatch x).isSome) → badHeaderLine l →
      mkMetaViewE ckhash memberPath [(fname, pre ++ l :: post)] = .error .invalid) := by
  constructor
  · intro ckhash memberPath dir fname ls pre post l hmem hmatch hls hpre hl
    obtain ⟨e1, he1⟩ := parseHeaders_error_of_bad pre l post hpre hl []
    have herr : read_mimeL ls = .error e1 := by rw [hls]; exact he1
    obtain ⟨e, he⟩ := read_membersGo_error memberPath dir fname ls e1 hmem hmatch herr
    refine ⟨e, ?_⟩
    unfold mkMetaViewE read_membersE
    rw [he]
    rfl
  · intro ckhash memberPath fname pre post l hmatch hpre hl
    obtain ⟨p, hp⟩ := Option.isSome_iff_exists.1 hmatch
    obtain ⟨numS, idS⟩ := p
    have herr : read_mimeL (pre ++ l :: post) = .error .invalid :=
      parseHeaders_invalid_of_bad pre l post hpre hl []
    unfold mkMetaViewE read_membersE
    simp only [read_membersGo, hp, herr]
    rfl

/-- Witness for the amended C8: a malformed line after one `key: value`
line yields the FormatError; a malformed line after a leading continuation
line still aborts construction. -/
theorem c8_amended_construction_aborts_witness :
    badHeaderLine "c&d" ∧
    (∀ x ∈ ["k: v"], (kvMatch x).isSome) ∧
    mkMetaViewE (fun _ => "") "members" [("0001_a.txt", ["k: v", "c&d"])] =
      .error .invalid ∧
    (∃ e, mkMetaViewE (fun _ => "") "members" [("0002_b.txt", [" x", "c&d"])] =
      .error e) :=
  ⟨by decide, by decide,
    c8_amended_construction_aborts.2 (fun _ => "") "members" "0001_a.txt"
      ["k: v"] [] "c&d" (by decide) (by decide) (by decide),
    c8_amended_construction_aborts.1 (fun _ => "") "members"
      [("0002_b.txt", [" x", "c&d"])] "0002_b.txt" [" x", "c&d"] [" x"] [] "c&d"
      (by decide) (by decide) (by decide) (by decide) (by decide)⟩

theorem AncM_det {members : List MemberM} {sponsor : MemberM → Option MemberM} :
    ∀ {s : Option MemberM} {k k' : Nat}, AncM members sponsor s k →
      AncM members sponsor s k' → k = k' := by
  intro s k k' h1
  induction h1 generalizing k' with
  | root =>
    intro h2
    cases h2
    rfl
  | step m k hm hanc ih =>
    intro h2
    cases h2 with
    | step m2 k2 hm2 hanc2 => rw [ih hanc2]

theorem AncM_chain {members : List MemberM} {sponsor : MemberM → Option MemberM} :
    ∀ {s : Option MemberM} {k : Nat}, AncM members sponsor s k →
    ∃ c : List MemberM, c.length = k ∧ c.Nodup ∧ (∀ x ∈ c, x ∈ members) ∧
      (∀ x ∈ c, ∃ j, 1 ≤ j ∧ j ≤ k ∧ AncM members sponsor (some x) j) := by
  intro s k h
  induction h with
  | root => exact ⟨[], rfl, List.nodup_nil, by simp, by simp⟩
  | step m k hm hanc ih =>
    obtain ⟨c, hlen, hnodup, hmemc, hdepth⟩ := ih
    have hmnotc : m ∉ c := by
      intro hc
      obtain ⟨j, hj1, hjk, hanc2⟩ := hdepth m hc
      have hdet := AncM_det (AncM.step m k hm hanc) hanc2
      omega
    refine ⟨m :: c, by simp [hlen], List.nodup_cons.2 ⟨hmnotc, hnodup⟩, ?_, ?_⟩
    · intro x hx
      rcases List.mem_cons.1 hx with rfl | hx
      · exact hm
      · exact hmemc x hx
    · intro x hx
      rcases List.mem_cons.1 hx with rfl | hx
      · exact ⟨k + 1, by omega, le_refl _, AncM.step x k hm hanc⟩
      · obtain ⟨j, h1, h2, h3⟩ := hdepth x hx
        exact ⟨j, h1, by omega, h3⟩

theorem AncM_le_length {members : List MemberM} {sponsor : MemberM → Option MemberM}
    {s : Option MemberM} {k : Nat} (h : AncM members sponsor s k) :
    k ≤ members.length := by
  obtain ⟨c, hlen, hnodup, hmemc, _⟩ := AncM_chain h
  have hsub : c ⊆ members := fun x hx => hmemc x hx
  have := (List.subperm_of_subset hnodup hsub).length_le
  omega

theorem seqOption_isSome {α : Type} (l : List (Option α))
    (h : ∀ x ∈ l, x.isSome = true) : ∃ v, seqOption l = some v := by
  induction l with
  | nil => exact ⟨[], rfl⟩
  | cons x xs ih =>
    obtain ⟨v, hv⟩ := Option.isSome_iff_exists.1 (h x (by simp))
    obtain ⟨vs, hvs⟩ := ih (fun y hy => h y (by simp [hy]))
    refine ⟨v :: vs, ?_⟩
    simp [seqOption, hv, hvs]

theorem seqOption_mem {α : Type} : ∀ {l : List (Option α)} {v : List α},
    seqOption l = some v → ∀ x ∈ v, some x ∈ l := by
  intro l
  induction l with
  | nil =>
    intro v h x hx
    simp only [seqOption, Option.some.injEq] at h
    subst h
    simp at hx
  | cons o os ih =>
    intro v h x hx
    cases o with
    | none => simp [seqOption] at h
    | some a =>
      simp only [seqOption, Option.some_bind] at h
      cases hos : seqOption os with
      | none => rw [hos] at h; exact absurd h (by simp)
      | some vs =>
        rw [hos] at h
        simp only [Option.map_some', Option.some.injEq] at h
        subst h
        rcases List.mem_cons.1 hx with rfl | hx
        · exact List.mem_cons_self _ _
        · exact List.mem_cons_of_mem _ (ih hos x hx)

theorem makeTreeF_isSome (members : List MemberM) (sponsor : MemberM → Option MemberM) :
    ∀ (fuel : Nat) (s : Option MemberM) (k : Nat), AncM members sponsor s k →
      members.length + 1 ≤ fuel + k →
      ∃ t, makeTreeF members sponsor fuel s = some t := by
  intro fuel
  induction fuel with
  | zero =>
    intro s k hanc hle
    have := AncM_le_length hanc
    omega
  | succ fuel ih =>
    intro s k hanc hle
    have hchild : ∀ x ∈ (sponsorLinks members sponsor s).map
        (fun m => makeTreeF members sponsor fuel (some m)), x.isSome = true := by
      intro x hx
      obtain ⟨m, hm, rfl⟩ := List.mem_map.1 hx
      have hmem : m ∈ members := List.mem_of_mem_filter hm
      have hsp : sponsor m = s := of_decide_eq_true (List.mem_filter.1 hm).2
      have hanc2 : AncM members sponsor (some m) (k + 1) :=
        AncM.step m k hmem (by rw [hsp]; exact hanc)
      obtain ⟨t, ht⟩ := ih (some m) (k + 1) hanc2 (by omega)
      rw [ht]
      rfl
    obtain ⟨children, hch⟩ := seqOption_isSome _ hchild
    refine ⟨MTree.node s children, ?_⟩
    simp [makeTreeF, hch]

theorem DepthChain_mem {members : List MemberM} {sponsor : MemberM → Option MemberM} :
    ∀ {k : Nat} {p : List (Option MemberM)}, DepthChain members sponsor k p →
      ∀ s ∈ p, ∃ j, k ≤ j ∧ AncM members sponsor s j := by
  intro k p h
  induction h with
  | single k s hanc =>
    intro x hx
    simp only [List.mem_singleton] at hx
    subst hx
    exact ⟨k, le_refl _, hanc⟩
  | cons k s p hanc hchain ih =>
    intro x hx
    rcases List.mem_cons.1 hx with rfl | hx
    · exact ⟨k, le_refl _, hanc⟩
    · obtain ⟨j, hj, ha⟩ := ih x hx
      exact ⟨j, by omega, ha⟩

theorem DepthChain_nodup {members : List MemberM} {sponsor : MemberM → Option MemberM} :
    ∀ {k : Nat} {p : List (Option MemberM)}, DepthChain members sponsor k p →
      (p.filterMap id).Nodup := by
  intro k p h
  induction h with
  | single k s hanc => cases s <;> simp
  | cons k s p hanc hchain ih =>
    cases s with
    | none => simpa using ih
    | some m =>
      have hcons : ((some m :: p).filterMap id) = m :: p.filterMap id := by simp
      rw [hcons]
      refine List.nodup_cons.2 ⟨?_, ih⟩
      intro hmem
      obtain ⟨o, ho, hoid⟩ := List.mem_filterMap.1 hmem
      have hsome : some m ∈ p := by
        have : o = some m := hoid
        exact this ▸ ho
      obtain ⟨j, hj, hanc2⟩ := DepthChain_mem hchain (some m) hsome
      have hk : k = j := AncM_det hanc hanc2
      omega

theorem makeTreeF_paths {members : List MemberM} {sponsor : MemberM → Option MemberM} :
    ∀ (fuel : Nat) (s : Option MemberM) (k : Nat) (t : MTree),
      AncM members sponsor s k → makeTreeF members sponsor fuel s = some t →
      ∀ p ∈ pathsFrom t, DepthChain members sponsor k p := by
  intro fuel
  induction fuel with
  | zero =>
    intro s k t _ ht
    exact absurd ht (by simp [makeTreeF])
  | succ fuel ih =>
    intro s k t hanc ht p hp
    simp only [makeTreeF] at ht
    cases hch : seqOption ((sponsorLinks members sponsor s).map
        (fun m => makeTreeF members sponsor fuel (some m))) with
    | none => rw [hch] at ht; exact absurd ht (by simp)
    | some children =>
      rw [hch] at ht
      simp only [Option.map_some', Option.some.injEq] at ht
      subst ht
      rw [pathsFrom] at hp
      rcases List.mem_cons.1 hp with rfl | hp
      · exact DepthChain.single k s hanc
      · obtain ⟨sub, hsub, hpsub⟩ := List.mem_flatten.1 hp
        obtain ⟨c, _, rfl⟩ := List.mem_map.1 hsub
        obtain ⟨p1, hp1, rfl⟩ := List.mem_map.1 hpsub
        have hcmem : some c.val ∈ (sponsorLinks members sponsor s).map
            (fun m => makeTreeF members sponsor fuel (some m)) :=
          seqOption_mem hch c.val c.2
        obtain ⟨m, hm, hmt⟩ := List.mem_map.1 hcmem
        have hmem : m ∈ members := List.mem_of_mem_filter hm
        have hsp : sponsor m = s := of_decide_eq_true (List.mem_filter.1 hm).2
        have hanc2 : AncM members sponsor (some m) (k + 1) :=
          AncM.step m k hmem (by rw [hsp]; exact hanc)
        exact DepthChain.cons k s _ hanc (ih (some m) (k + 1) c.val hanc2 hmt p1 hp1)

/-- C4: sponsorship-tree construction terminates on every input — fuel
`members.length + 1` always suffices for `_make_tree(None)` (in
particular on inputs whose sponsor references form a cycle, whose members
are then simply unreachable from the synthetic root since each member has
exactly one sponsor value) — and no member occurs twice along any single
root-to-node path of the resulting tree. -/
theorem c4_sponsorship_tree_terminates (members : List MemberM)
    (sponsor : MemberM → Option MemberM) :
    ∃ t, makeTreeF members sponsor (members.length + 1) none = some t ∧
      ∀ p ∈ pathsFrom t, (p.filterMap id).Nodup := by
  obtain ⟨t, ht⟩ := makeTreeF_isSome members sponsor (members.length + 1) none 0
    AncM.root (by omega)
  refine ⟨t, ht, ?_⟩
  intro p hp
  exact DepthChain_nodup (makeTreeF_paths (members.length + 1) none 0 t AncM.root ht p hp)

/-- The 3-cycle of the spec's example: A sponsors B, B sponsors C, C
sponsors A, none rooted.  The tree construction terminates and, since no
member's sponsor chain reaches the synthetic root, yields the bare root. -/
example :
    makeTreeF [cycleA, cycleB, cycleC]
      (fun m => if m = cycleB then some cycleA
                else if m = cycleC then some cycleB
                else some cycleC) 4 none =
    some (MTree.node none []) := by rfl

/-- C9: for a project whose cached package-info snapshot is absent
(`pypi_info` is `None`), full serialization raises a `TypeError` while
iterating the absent classifier list (`{}.get('classifiers')` is `None`)
instead of returning a document, whereas compact serialization succeeds
and reports `latest_release` as absent. -/
theorem c9_absent_pypi_info_serialization (urlquote : String → String)
    (parse_version : String → Nat) (p : ProjectP) (h : p.pypi_info = none) :
    projTo_json urlquote parse_version p false = .error .typeError ∧
    projTo_json urlquote parse_version p true = .ok (Py.pdict [
      ("internal_name", Py.pstr p.internal_name),
      ("name", optStrPy p.name),
      ("github", optStrPy p.github),
      ("is_extension", Py.pbool p.is_extension),
      ("latest_release", Py.pynone),
      ("pypi", optStrPy p.pypi),
      ("stewards", Py.plist (p.stewards.map memberCompactJson))]) := by
  constructor
  · simp only [projTo_json, h]
    rfl
  · simp only [projTo_json, h]
    rfl

/-- Witness for C9 at a concrete cache-less project. -/
theorem c9_absent_pypi_info_serialization_witness :
    pW.pypi_info = none ∧
    projTo_json id (fun _ => 0) pW false = .error .typeError ∧
    projTo_json id (fun _ => 0) pW true = .ok (Py.pdict [
      ("internal_name", Py.pstr "flask"),
      ("name", Py.pynone),
      ("github", Py.pynone),
      ("is_extension", Py.pbool false),
      ("latest_release", Py.pynone),
      ("pypi", Py.pynone),
      ("stewards", Py.plist [])]) :=
  ⟨rfl, (c9_absent_pypi_info_serialization id (fun _ => 0) pW rfl).1,
    (c9_absent_pypi_info_serialization id (fun _ => 0) pW rfl).2⟩

/-- C10: no entity type defines a `has_stewards` attribute, so the
needs-stewards listing — whose comprehension filters on
`x.has_stewards` — raises `AttributeError` on every registry with at
least one project, instead of returning the projects without stewards. -/
theorem c10_needs_stewards_attribute_error (urlquote : String → String)
    (parse_version : String → Nat) (projects : List ProjectP) (h : projects ≠ []) :
    ("has_stewards" ∉ projectAttrs ∧ "has_stewards" ∉ personAttrs ∧
      "has_stewards" ∉ memberAttrs) ∧
    list_needs_stewards_apiM urlquote parse_version projects = .error .attrError := by
  refine ⟨⟨by decide, by decide, by decide⟩, ?_⟩
  unfold list_needs_stewards_apiM
  have hne : iter_projectsM projects ≠ [] := by
    unfold iter_projectsM
    intro hc
    have hlen := List.length_insertionSort projNameLE projects
    rw [hc] at hlen
    exact h (List.eq_nil_of_length_eq_zero hlen.symm)
  cases hiter : iter_projectsM projects with
  | nil => exact absurd hiter hne
  | cons p rest => rfl

/-- Witness for C10 on a one-project registry. -/
theorem c10_needs_stewards_attribute_error_witness :
    ([pW] : List ProjectP) ≠ [] ∧
    list_needs_stewards_apiM id (fun _ => 0) [pW] = .error .attrError :=
  ⟨by simp,
    (c10_needs_stewards_attribute_error id (fun _ => 0) [pW] (by simp)).2⟩

/-- Witness for the amended C7: a non-matching filename is skipped, and
the shape characterization instantiates at a well-formed name. -/
theorem c7_amended_filename_admission_witness :
    memberMatch "README" = none ∧
    read_membersGo "members" [("README", ["x: y"])] = read_membersGo "members" [] ∧
    ((memberMatch "0001_a.txt").isSome = true ↔ memberShapeAmended "0001_a.txt") :=
  ⟨by decide,
    c7_amended_filename_admission.2 "members" "README" ["x: y"] [] (by decide),
    c7_amended_filename_admission.1 "0001_a.txt"⟩
